import Mathlib

/-!
Verification of the QuantumDB scraping pipeline (committee scraping,
talk/schedule matching).  Python strings are modelled as lists of
characters; the Python text primitives used by the code
(`str.split`, `str.strip`, `' '.join`, `str.lower`, `str.upper`,
substring tests, …) are embedded below.  Case mapping is modelled for
the ASCII range (Lean's `Char.toLower`/`Char.toUpper`), which is the
repertoire the scraped pages use for cased characters.
-/

namespace QuantumDB

/-- A Python string, as a list of characters. -/
abbrev Str := List Char

/-- The whitespace characters recognised by Python's `str.split()` /
`str.strip()` (ASCII whitespace). -/
def pySpace (c : Char) : Bool :=
  c = ' ' || c = '\t' || c = '\n' || c = '\x0d' || c = '\x0b' || c = '\x0c'

/-- Helper for `pySplit`: `acc` is the current word, reversed. -/
def pySplitAux (acc : Str) : Str → List Str
  | [] => if acc.isEmpty then [] else [acc.reverse]
  | c :: rest =>
    if pySpace c then
      if acc.isEmpty then pySplitAux [] rest
      else acc.reverse :: pySplitAux [] rest
    else pySplitAux (c :: acc) rest

/-- Python `str.split()` (no argument): split on runs of whitespace,
dropping empty pieces. -/
def pySplit (s : Str) : List Str := pySplitAux [] s

/-- Python `' '.join(ws)`. -/
def joinWords : List Str → Str
  | [] => []
  | [w] => w
  | w :: ws => w ++ ' ' :: joinWords ws

/-- Python `str.strip()`: drop leading and trailing whitespace. -/
def pyStrip (s : Str) : Str :=
  ((s.dropWhile pySpace).reverse.dropWhile pySpace).reverse

/-- Python `str.lower()` (ASCII model). -/
def pyLower (s : Str) : Str := s.map Char.toLower

/-- Python `str.upper()` (ASCII model). -/
def pyUpper (s : Str) : Str := s.map Char.toUpper

/-- Python `needle in hay` for strings: substring test. -/
def strContains (hay needle : Str) : Bool :=
  match hay with
  | [] => needle.isEmpty
  | _ :: t => needle.isPrefixOf hay || strContains t needle

/-- Python string comparison `a <= b`: lexicographic on code points. -/
def strLe : Str → Str → Bool
  | [], _ => true
  | _ :: _, [] => false
  | a :: as_, b :: bs =>
    if a.toNat < b.toNat then true
    else if b.toNat < a.toNat then false
    else strLe as_ bs

/-! ### `normalize_affiliation` (scrapers/base.py, committees and talks)

```python
if not affiliation:
    return None
normalized = ' '.join(affiliation.strip().split())
return normalized if normalized else None
```
-/

def normalize_affiliation (affiliation : Str) : Option Str :=
  if affiliation.isEmpty then none
  else if (joinWords (pySplit (pyStrip affiliation))).isEmpty then none
  else some (joinWords (pySplit (pyStrip affiliation)))

/-! ### `normalize_name` (scrape_committees.py)

```python
name = re.sub(r'\b(Dr\.|Prof\.|Jr\.|Sr\.|Ph\.?D\.?|M\.?D\.?)\b', '', name,
              flags=re.IGNORECASE)
name = ' '.join(name.split())
return name.lower().strip()
```

The regex is embedded exactly: `\b` is a word boundary (a position
with a word character on exactly one side; the ends of the string
count as non-word), the alternation is tried left to right, and the
two `\.?` inside `Ph\.?D\.?` / `M\.?D\.?` backtrack longest-first.
`\w` is ASCII alphanumerics plus underscore; non-ASCII characters
(accented letters in names) are word characters. -/

/-- Regex `\w` for the character repertoire of the scraped pages:
ASCII alphanumerics, underscore, and (accented) letters above ASCII. -/
def wordChar (c : Char) : Bool := c.isAlphanum || c = '_' || decide (128 ≤ c.val)

/-- Word boundary between an optional previous character and an
optional next character. -/
def wordBoundary (prev next : Option Char) : Bool :=
  (prev.elim false wordChar) != (next.elim false wordChar)

/-- Case-insensitive prefix match (ASCII case folding): on success
return the rest of the string. -/
def iMatch : Str → Str → Option Str
  | [], s => some s
  | _ :: _, [] => none
  | p :: ps, c :: cs => if p.toLower = c.toLower then iMatch ps cs else none

/-- The alternatives of `Dr\.|Prof\.|Jr\.|Sr\.|Ph\.?D\.?|M\.?D\.?`,
lower-cased, in the order the regex engine tries them (alternation
left to right, optional dots longest-first). -/
def titleCands : List Str :=
  [('d' : Char) :: 'r' :: '.' :: [],
   ('p' : Char) :: 'r' :: 'o' :: 'f' :: '.' :: [],
   ('j' : Char) :: 'r' :: '.' :: [],
   ('s' : Char) :: 'r' :: '.' :: [],
   ('p' : Char) :: 'h' :: '.' :: 'd' :: '.' :: [],
   ('p' : Char) :: 'h' :: '.' :: 'd' :: [],
   ('p' : Char) :: 'h' :: 'd' :: '.' :: [],
   ('p' : Char) :: 'h' :: 'd' :: [],
   ('m' : Char) :: '.' :: 'd' :: '.' :: [],
   ('m' : Char) :: '.' :: 'd' :: [],
   ('m' : Char) :: 'd' :: '.' :: [],
   ('m' : Char) :: 'd' :: []]

/-- Last character of a nonempty string (`' '` for the empty string,
never used there). -/
def lastCh : Str → Char
  | [] => ' '
  | [c] => c
  | _ :: c :: rest => lastCh (c :: rest)

/-- Try each alternative at the current position; an alternative
succeeds when it matches case-insensitively and the trailing `\b`
holds.  Returns the rest of the input after the match. -/
def tryCands : List Str → Str → Option Str
  | [], _ => none
  | cand :: cs, s =>
    match iMatch cand s with
    | some rem =>
      if wordBoundary (some (lastCh cand)) rem.head? then some rem
      else tryCands cs s
    | none => tryCands cs s

theorem iMatch_length {p s rem : Str} (h : iMatch p s = some rem) :
    rem.length + p.length = s.length := by
  induction p generalizing s with
  | nil => simp [iMatch] at h; simp [h]
  | cons a ps ih =>
    cases s with
    | nil => simp [iMatch] at h
    | cons c cs =>
      simp only [iMatch] at h
      split at h
      · have := ih h
        simp [List.length_cons]; omega
      · exact absurd h (by simp)

theorem tryCands_length {cs : List Str} {s rem : Str}
    (hne : ∀ c ∈ cs, c ≠ []) (h : tryCands cs s = some rem) :
    rem.length < s.length := by
  induction cs with
  | nil => simp [tryCands] at h
  | cons cand rest ih =>
    simp only [tryCands] at h
    cases him : iMatch cand s with
    | some r =>
      simp only [him] at h
      split at h
      · cases h
        have hlen := iMatch_length him
        have : cand.length ≠ 0 := by
          intro h0
          exact hne cand (by simp) (List.length_eq_zero.mp h0)
        omega
      · exact ih (fun c hc => hne c (by simp [hc])) h
    | none =>
      simp only [him] at h
      exact ih (fun c hc => hne c (by simp [hc])) h

theorem titleCands_ne_nil : ∀ c ∈ titleCands, c ≠ [] := by
  intro c hc
  fin_cases hc <;> simp

/-- The text consumed by a match (needed for the next boundary
check: the character before the resumption point is the last
consumed character). -/
def titleMatched (s rem : Str) : Str := s.take (s.length - rem.length)

/-- The scan of `re.sub(r'\b(title)\b', '', s, flags=re.I)`,
structurally recursive on a fuel argument so that it reduces inside
the kernel; every step consumes at least one input character
(`tryCands_length`), so fuel `s.length` always suffices. -/
def subTitlesGo : Nat → Option Char → Str → Str
  | 0, _, _ => []
  | _ + 1, _, [] => []
  | fuel + 1, prev, c :: rest =>
    if wordBoundary prev (some c) then
      match tryCands titleCands (c :: rest) with
      | some rem =>
        subTitlesGo fuel (some (lastCh (titleMatched (c :: rest) rem))) rem
      | none => c :: subTitlesGo fuel (some c) rest
    else c :: subTitlesGo fuel (some c) rest

/-- `re.sub(r'\b(title)\b', '', s, flags=re.I)`: scan left to right,
removing every (non-overlapping) match.  `prev` is the character just
before the current position (`none` at the start). -/
def subTitles (prev : Option Char) (s : Str) : Str :=
  subTitlesGo s.length prev s

/-- `normalize_name` from scrape_committees.py. -/
def normalize_name (name : Str) : Str :=
  pyStrip (pyLower (joinWords (pySplit (subTitles none name))))

/-- `clean_name` from scrape_committees.py: `' '.join(name.split())`. -/
def clean_name (name : Str) : Str := joinWords (pySplit name)

/-! ### `CommitteeMember` and `deduplicate_members` (scrape_committees.py) -/

structure CommitteeMember where
  name : Str
  committee : Str
  position : Str
  role_title : Option Str
  affiliation : Option Str
deriving DecidableEq

/-- The sort relation of `sorted(members, key=lambda m: m.name)`. -/
def memberLe (a b : CommitteeMember) : Prop := strLe a.name b.name = true

instance : DecidableRel memberLe := fun a b => by
  unfold memberLe; infer_instance

/-- Python's `sorted` is a stable sort; `List.insertionSort` (insert
before the first element that is `≥`) computes the same stable
ordering. -/
def pySortMembers (l : List CommitteeMember) : List CommitteeMember :=
  List.insertionSort memberLe l

/-- The loop of `deduplicate_members`: `seen` is the set of
normalized names already kept. -/
def dedupAux (seen : List Str) : List CommitteeMember → List CommitteeMember
  | [] => []
  | m :: ms =>
    if normalize_name m.name ∈ seen then dedupAux seen ms
    else m :: dedupAux (normalize_name m.name :: seen) ms

/-- `deduplicate_members` from scrape_committees.py. -/
def deduplicate_members (members : List CommitteeMember) : List CommitteeMember :=
  dedupAux [] (pySortMembers members)

/-! ### `detect_position` and `detect_role_title` -/

/-- `detect_position` from scrape_committees.py. The first component
is the position (`'chair'`, `'co_chair'`, `'area_chair'`, `'member'`),
the second the optional role title. -/
def detect_position (_name full_text role_info : Str) : Str × Option Str :=
  let combined := pyLower (full_text ++ ' ' :: role_info)
  if strContains combined "general chair".data
      || strContains combined "conference chair".data then
    ("chair".data, some "General Chair".data)
  else if strContains combined "program chair".data
      || strContains combined "pc chair".data
      || strContains combined "pc primary chair".data then
    ("chair".data, some "Program Chair".data)
  else if strContains combined "steering chair".data
      || strContains combined "sc chair".data then
    ("chair".data, some "Steering Chair".data)
  else if strContains combined "local chair".data then
    ("chair".data, some "Local Chair".data)
  else if strContains combined "co-chair".data
      || strContains combined "cochair".data
      || strContains combined "pc co-chair".data then
    ("co_chair".data, none)
  else if strContains combined "area chair".data
      || strContains combined "senior pc".data then
    ("area_chair".data, none)
  else if strContains combined "chair".data then
    ("chair".data, none)
  else
    ("member".data, none)

/-- The `(pattern, title)` table of `detect_role_title`
(scrapers/base.py), in priority order. -/
def rolePatterns : List (Str × Str) :=
  [("general chair".data, "General Chair".data),
   ("conference chair".data, "General Chair".data),
   ("program chair".data, "Program Chair".data),
   ("programme chair".data, "Program Chair".data),
   ("steering chair".data, "Steering Chair".data),
   ("local chair".data, "Local Chair".data),
   ("publicity chair".data, "Publicity Chair".data),
   ("web chair".data, "Web Chair".data),
   ("webmaster".data, "Web Chair".data),
   ("technical operations chair".data, "Technical Operations Chair".data),
   ("local arrangements".data, "Local Arrangements Chair".data),
   ("registration chair".data, "Registration Chair".data),
   ("proceedings chair".data, "Proceedings Chair".data),
   ("poster chair".data, "Poster Chair".data),
   ("tutorial chair".data, "Tutorial Chair".data),
   ("workshop chair".data, "Workshop Chair".data),
   ("sponsorship chair".data, "Sponsorship Chair".data),
   ("finance chair".data, "Finance Chair".data),
   ("social events chair".data, "Social Events Chair".data)]

/-- `detect_role_title` from scrapers/base.py (committee scrapers). -/
def detect_role_title (text heading_text : Str) : Option Str :=
  let combined := pyLower (heading_text ++ ' ' :: text)
  (rolePatterns.find? fun p => strContains combined p.1).map Prod.snd

/-! ### `extract_name_affiliation_role` (scrape_committees.py) -/

/-- Python `s.split(sep, 1)`: the part before the first occurrence of
`sep`, and — when `sep` occurs — the part after it. -/
def splitOnce (sep : Str) : Str → Str × Option Str
  | [] => ([], none)
  | c :: rest =>
    if sep.isPrefixOf (c :: rest) then ([], some ((c :: rest).drop sep.length))
    else
      let p := splitOnce sep rest
      (c :: p.1, p.2)

theorem splitOnce_rest_length {sep s a rest : Str} (hsep : sep ≠ [])
    (h : splitOnce sep s = (a, some rest)) : rest.length < s.length := by
  induction s generalizing a with
  | nil => simp [splitOnce] at h
  | cons c t ih =>
    simp only [splitOnce] at h
    split at h
    · injection h with h1 h2
      injection h2 with h2
      have hsl : 1 ≤ sep.length := by
        cases sep with
        | nil => exact absurd rfl hsep
        | cons x xs => simp
      rw [← h2, List.length_drop]
      simp
      omega
    · injection h with h1 h2
      cases hp : splitOnce sep t with
      | mk a2 b2 =>
        rw [hp] at h2
        simp at h2
        subst h2
        have := ih hp
        simp
        omega

/-- The `institution_keywords` set. -/
def institution_keywords : List Str :=
  ["university".data, "institute".data, "college".data, "laboratory".data,
   "center".data, "centre".data, "school".data, "department".data, "lab".data,
   "research".data, "academy".data, "national".data, "ministry".data,
   "agency".data, "corporation".data, "company".data, "foundation".data,
   "society".data, "organization".data, "organisation".data, "consortium".data,
   "jpmorgan".data, "amazon".data, "google".data, "microsoft".data, "ibm".data,
   "aws".data, "ntt".data, "cesga".data, "cnrs".data, "inria".data, "eth".data,
   "mit".data, "caltech".data, "weizmann".data, "fraunhofer".data, "hhh".data,
   "iis".data]

/-- Location words that may precede an institution keyword. -/
def locPrev : List Str :=
  ["new".data, "york".data, "hong".data, "kong".data, "san".data, "los".data,
   "tel".data, "aviv".data, "rio".data, "cape".data, "town".data,
   "mexico".data, "city".data]

/-- Two-word location prefixes ("New York", "Hong Kong", …). -/
def locPrev2 : List Str :=
  ["new".data, "san".data, "hong".data, "tel".data, "rio".data, "cape".data]

/-- The first index `i ≥ 1` whose (lower-cased) word is an
institution keyword, adjusted for location prefixes — the
`affiliation_start` computation of the `' Site '` branch. -/
def affiliationStart (words : List Str) : Option Nat :=
  match ((List.range words.length).drop 1).find?
      (fun i => pyLower (words.getD i []) ∈ institution_keywords) with
  | none => none
  | some i =>
    if 2 < i ∧ pyLower (words.getD (i - 1) []) ∈ locPrev then
      if 3 < i ∧ pyLower (words.getD (i - 2) []) ∈ locPrev2 then some (i - 2)
      else some (i - 1)
    else some i

/-- The `name_word_count` fallback of the `' Site '` branch: at most
three words, stopping at the first word that does not start with an
upper-case letter. -/
def nameWordCount (words : List Str) : Nat :=
  match ((List.range (min 4 words.length)).drop 1).find?
      (fun i =>
        match words.getD i [] with
        | [] => false
        | c :: _ => !c.isUpper) with
  | some i => i
  | none => min 3 words.length

/-- `extract_name_affiliation_role` from scrape_committees.py:
returns `(name, affiliation, role_info)`. -/
def extract_name_affiliation_role (text : Str) : Str × Option Str × Str :=
  if strContains text " Site ".data then
    let p := splitOnce " Site ".data text
    let before_site := p.1
    let after_site := p.2.getD []
    let words := pySplit before_site
    let nwc :=
      match affiliationStart words with
      | none => nameWordCount words
      | some i => i
    let name := joinWords (words.take nwc)
    let affiliation :=
      if nwc < words.length then some (joinWords (words.drop nwc)) else none
    (name, affiliation, after_site)
  else if strContains text "(".data ∧ strContains text ")".data then
    let p := splitOnce "(".data text
    let name := pyStrip p.1
    let rest := p.2.getD []
    match rest.findIdx? (· = ')') with
    | some k =>
      let in_parens := rest.take k
      let isRole := strContains (pyLower in_parens) "chair".data
          || strContains (pyLower in_parens) "member".data
      let role0 := if isRole then in_parens else []
      let affiliation := if isRole then none else some in_parens
      let after_parens := pyStrip (rest.drop (k + 1))
      let role_info :=
        if after_parens.isEmpty then role0 else role0 ++ ' ' :: after_parens
      (name, affiliation, role_info)
    | none => (name, none, [])
  else if strContains text " - ".data ∨ strContains text " – ".data then
    let sep := if strContains text " - ".data then " - ".data else " – ".data
    let p := splitOnce sep text
    let name := pyStrip p.1
    let rest := p.2.getD []
    let rest_lower := pyLower rest
    if strContains rest_lower "chair".data || strContains rest_lower "member".data
        || strContains rest_lower "organizer".data then
      (name, none, rest)
    else
      (name, some rest, [])
  else if strContains text ",".data then
    let p := splitOnce ",".data text
    let name := pyStrip p.1
    let rest := pyStrip (p.2.getD [])
    let rest_lower := pyLower rest
    if strContains rest_lower "chair".data || strContains rest_lower "member".data
        || strContains rest_lower "organizer".data then
      (name, none, rest)
    else
      (name, some rest, [])
  else
    (text, none, text)

/-! ### `parse_member_entry` (scrape_committees.py) -/

def blacklist_primary : List Str :=
  ["accepted papers".data, "call for papers".data, "code of conduct".data,
   "charter".data, "schedule".data, "speakers".data, "poster".data,
   "pictures".data, "sponsors".data, "partners".data, "proceedings".data,
   "registration".data, "venue".data, "travel".data, "accommodation".data,
   "contact".data, "about".data, "home".data, "news".data, "archive".data,
   "previous".data, "next".data, "program".data, "tutorials".data,
   "workshops".data, "members only".data, "login".data, "logout".data,
   "search".data]

def blacklist_nav : List Str :=
  ["twitter".data, "youtube".data, "linkedin".data, "facebook".data,
   "instagram".data, "steering committee".data, "program committee".data,
   "organizing committee".data, "general chairs".data, "program chairs".data,
   "local arrangements".data]

/-- The "looks like a person's entry" test inside the navigation
blacklist loop: at least two words, at least one starting with an
upper-case letter. -/
def looksLikePerson (text : Str) : Bool :=
  let words := pySplit text
  decide (2 ≤ words.length) &&
    words.any (fun w =>
      match w with
      | [] => false
      | c :: _ => c.isUpper)

/-- Python `str.isupper()` (ASCII model): at least one cased
character, and no lower-case character. -/
def pyIsUpper (t : Str) : Bool :=
  t.any (fun c => c.isUpper || c.isLower) && !t.any (fun c => c.isLower)

/-- Python `str.islower()` (ASCII model). -/
def pyIsLower (t : Str) : Bool :=
  t.any (fun c => c.isUpper || c.isLower) && !t.any (fun c => c.isUpper)

/-- `parse_member_entry` from scrape_committees.py. -/
def parse_member_entry (text : Str) (committee_type : Str) :
    Option CommitteeMember :=
  let text_lower := pyLower text
  -- navigation blacklist: each item returns None unless the entry
  -- looks like a person (the `continue` keeps scanning otherwise)
  if blacklist_nav.any (fun item =>
      strContains text_lower item && decide (text.length < 100)
        && !looksLikePerson text) then none
  -- primary blacklist
  else if blacklist_primary.any (fun item =>
      decide (item = text_lower)
        || (strContains text_lower item && decide (text.length < 30))) then none
  -- all caps or URLs
  else if pyIsUpper text || strContains text "http://".data
      || strContains text "https://".data
      || strContains text "www.".data then none
  -- at least three alphabetic characters
  else if decide ((text.filter Char.isAlpha).length < 3) then none
  -- at least two words, unless a parenthesis is present
  else if decide ((pySplit text).length < 2) && !strContains text "(".data then
    none
  else
    let e := extract_name_affiliation_role text
    let name := e.1
    let affiliation := e.2.1
    let role_info := e.2.2
    if decide (name.length < 3) || decide (100 < name.length) then none
    else if decide (name = pyLower name) || decide (name = pyUpper name) then
      none
    else
      let d := detect_position name text role_info
      some ⟨clean_name name, committee_type, d.1, d.2, affiliation⟩

/-! ### Title Matcher (tqc2023-24/convert_tqc_to_csv.py)

Scores use exact rational arithmetic (the Python code uses floats;
all divisions involved are exact enough that ℚ is the intended
semantics of the scoring formula). -/

namespace Tqc

/-- `normalize_title` from convert_tqc_to_csv.py:
`lower`, then `re.sub(r'[^\w\s]', ' ', ·)`, then
`re.sub(r'\s+', ' ', ·).strip()` — the last two steps together are
`' '.join(·.split())`. -/
def normalize_title (title : Str) : Str :=
  joinWords (pySplit
    ((pyLower title).map fun c => if wordChar c || pySpace c then c else ' '))

/-- The fields of a talk row that `merge_schedule_with_talks` reads
or writes (the remaining CSV fields are copied unchanged). -/
structure Talk where
  title : Str
  arxiv_ids : Str
  speakers : Str
  scheduled_date : Str
  scheduled_time : Str
  duration_minutes : Str
deriving DecidableEq

/-- A parsed calendar event, as consumed by the merge. -/
structure Event where
  title_from_summary : Str
  arxiv_ids : Str
  date : Str
  time : Str
  duration_minutes : Str
  speaker : Str
deriving DecidableEq

/-- Fuelled body of `splitSep`; each step shortens the string by at
least the separator (`splitOnce_rest_length`), so fuel `s.length + 1`
always suffices for a nonempty separator. -/
def splitSepGo (sep : Str) : Nat → Str → List Str
  | 0, s => [s]
  | fuel + 1, s =>
    match splitOnce sep s with
    | (a, none) => [a]
    | (a, some rest) => a :: splitSepGo sep fuel rest

/-- Python `s.split(sep)` for a nonempty separator: all pieces,
empty pieces kept. -/
def splitSep (sep : Str) (s : Str) : List Str :=
  splitSepGo sep (s.length + 1) s

/-- `set(sched.get('arxiv_ids','').split(', ')) - {''}`. -/
def schedArxivSet (e : Event) : Finset Str :=
  (splitSep (", ".data) e.arxiv_ids).toFinset.erase []

/-- The arXiv condition of the scoring loop:
`talk_arxiv_id and talk_arxiv_id in sched_arxiv_ids`. -/
def sharesArxiv (talk : Talk) (e : Event) : Prop :=
  pyStrip talk.arxiv_ids ≠ [] ∧ pyStrip talk.arxiv_ids ∈ schedArxivSet e

instance (talk : Talk) (e : Event) : Decidable (sharesArxiv talk e) := by
  unfold sharesArxiv; infer_instance

/-- The score the merge loop assigns to a `(talk, event)` pair. -/
def scoreOf (talk : Talk) (e : Event) : ℚ :=
  let base : ℚ := if sharesArxiv talk e then 100 else 0
  let sched_title := normalize_title e.title_from_summary
  let talk_title := normalize_title talk.title
  if sched_title ≠ [] ∧ talk_title ≠ [] then
    let sched_words := (pySplit sched_title).toFinset
    let talk_words := (pySplit talk_title).toFinset
    if sched_words.Nonempty ∧ talk_words.Nonempty then
      let overlap := (sched_words ∩ talk_words).card
      let union := (sched_words ∪ talk_words).card
      let similarity : ℚ := if 0 < union then (overlap : ℚ) / union else 0
      base + similarity * 50
    else base
  else base

/-- The `best_match` / `best_score` loop of
`merge_schedule_with_talks`, processing the schedule in order. -/
def findBest (talk : Talk) : List Event → Option Event × ℚ → Option Event × ℚ
  | [], best => best
  | e :: es, best =>
    let s := scoreOf talk e
    if s > best.2 ∧ s > 20 then findBest talk es (some e, s)
    else findBest talk es best

/-- Attaching the selected event's fields to a talk. -/
def applyMatch (talk : Talk) : Option Event → Talk
  | none => talk
  | some b =>
    { talk with
      scheduled_date := b.date
      scheduled_time := b.time
      duration_minutes := b.duration_minutes
      speakers := if b.speaker.isEmpty then talk.speakers else b.speaker }

/-- `merge_schedule_with_talks` from convert_tqc_to_csv.py: the
merged talks and the matched count. -/
def merge_schedule_with_talks :
    List Talk → List Event → List Talk × Nat
  | [], _ => ([], 0)
  | t :: ts, schedule =>
    let best := (findBest t schedule (none, 0)).1
    let rest := merge_schedule_with_talks ts schedule
    (applyMatch t best :: rest.1, (if best.isSome then 1 else 0) + rest.2)

end Tqc

/-! ### `normalize_title` (qip2026/generate_csv_with_schedule.py) -/

namespace Qip

/-- The rest of the string after the first `']'`; the regex `.`
does not cross a newline, and fails when no `']'` follows. -/
def findClose : Str → Option Str
  | [] => none
  | c :: r => if c = ']' then some r else if c = '\n' then none else findClose r

/-- A match of `\s*\[.*?\]\s*` starting at the current position:
returns the rest of the input after the match. -/
def bracketMatch (s : Str) : Option Str :=
  match s.dropWhile pySpace with
  | '[' :: rest =>
    match findClose rest with
    | some rem => some (rem.dropWhile pySpace)
    | none => none
  | _ => none

theorem length_dropWhile_le (p : Char → Bool) (l : Str) :
    (l.dropWhile p).length ≤ l.length := by
  induction l with
  | nil => simp
  | cons c cs ih =>
    simp only [List.dropWhile]
    split
    · simp; omega
    · simp

theorem findClose_length {l r : Str} (h : findClose l = some r) :
    r.length < l.length := by
  induction l with
  | nil => simp [findClose] at h
  | cons c cs ih =>
    simp only [findClose] at h
    split at h
    · cases h; simp
    · split at h
      · cases h
      · have := ih h; simp; omega

theorem bracketMatch_length {s rem : Str} (h : bracketMatch s = some rem) :
    rem.length < s.length := by
  unfold bracketMatch at h
  split at h
  case _ rest heq =>
    cases hfc : findClose rest with
    | none => rw [hfc] at h; cases h
    | some r0 =>
      rw [hfc] at h
      cases h
      have h1 : r0.length < rest.length := findClose_length hfc
      have h2 : (r0.dropWhile pySpace).length ≤ r0.length :=
        length_dropWhile_le pySpace r0
      have h3 : (s.dropWhile pySpace).length ≤ s.length :=
        length_dropWhile_le pySpace s
      have h4 : (s.dropWhile pySpace).length = rest.length + 1 := by
        rw [heq]; simp
      omega
  case _ => cases h

/-- Fuelled body of `subBrackets`; every step consumes at least one
input character (`bracketMatch_length`), so fuel `s.length` always
suffices. -/
def subBracketsGo : Nat → Str → Str
  | 0, _ => []
  | _ + 1, [] => []
  | fuel + 1, c :: rest =>
    match bracketMatch (c :: rest) with
    | some rem => ' ' :: subBracketsGo fuel rem
    | none => c :: subBracketsGo fuel rest

/-- `re.sub(r'\s*\[.*?\]\s*', ' ', title)`: scan left to right,
replacing each match with a single space. -/
def subBrackets (s : Str) : Str := subBracketsGo s.length s

/-- NFD decomposition of one character, modelled for the character
repertoire used in this development (identity on characters without
a decomposition here; combining acute = U+0301, diaeresis = U+0308,
tilde = U+0303). -/
def nfdChar (c : Char) : Str :=
  if c = 'á' then 'a' :: '́' :: []
  else if c = 'é' then 'e' :: '́' :: []
  else if c = 'í' then 'i' :: '́' :: []
  else if c = 'ó' then 'o' :: '́' :: []
  else if c = 'ú' then 'u' :: '́' :: []
  else if c = 'ü' then 'u' :: '̈' :: []
  else if c = 'ö' then 'o' :: '̈' :: []
  else if c = 'ä' then 'a' :: '̈' :: []
  else if c = 'ñ' then 'n' :: '̃' :: []
  else if c = 'Á' then 'A' :: '́' :: []
  else if c = 'É' then 'E' :: '́' :: []
  else if c = 'Í' then 'I' :: '́' :: []
  else if c = 'Ó' then 'O' :: '́' :: []
  else if c = 'Ú' then 'U' :: '́' :: []
  else if c = 'Ü' then 'U' :: '̈' :: []
  else if c = 'Ö' then 'O' :: '̈' :: []
  else if c = 'Ä' then 'A' :: '̈' :: []
  else if c = 'Ñ' then 'N' :: '̃' :: []
  else [c]

/-- `unicodedata.combining(c) != 0`, restricted to the combining
diacritical marks block. -/
def combining (c : Char) : Bool :=
  decide (0x300 ≤ c.val) && decide (c.val ≤ 0x36F)

/-- `normalize_title` from qip2026/generate_csv_with_schedule.py. -/
def normalize_title (title : Str) : Str :=
  if title.isEmpty then []
  else
    let t1 := subBrackets title
    let t2 := (t1.map nfdChar).flatten.filter fun c => !combining c
    let t3 := pyLower t2
    let t4 := t3.map fun c => if c.isAlphanum || pySpace c then c else ' '
    joinWords (pySplit t4)

end Qip

/-! ### Section-based parsing (scrape_committees.py)

The document is modelled as the flat sequence of sibling nodes that
`parse_section_based` / `extract_members_between_headings` traverse
(headings, member-card sections, plain lists, other tags); text
contents are carried already extracted, as `get_text` returns them.
A `<p>`/`<div>` that directly wraps a `<section class="members">` is
modelled by the `secMembers` node itself (the code treats both
identically).  bs4 compares tags structurally (`current ==
end_heading`), which the model's decidable equality mirrors. -/

/-- One member card inside `<ul class="members">`: either a
`<div class="label">` card (optional `<h3>` name and the `<h4>`
texts, in order), or an unstructured `<li>` with its text. -/
inductive Card where
  | labeled (name : Option Str) (h4s : List Str)
  | plain (text : Str)
deriving DecidableEq

/-- A sibling node of the region walk. -/
inductive Node where
  /-- `<hN>` with its text. -/
  | heading (level : Nat) (text : Str)
  /-- A plain `<ul>` with its class list and the texts of its
  direct `<li>` children. -/
  | ulist (classes : List Str) (items : List Str)
  /-- A `<section class="members">` (or an element directly wrapping
  one); `hasUl` records whether it contains a `<ul class="members">`,
  whose direct `<li>` children are `cards`. -/
  | secMembers (hasUl : Bool) (cards : List Card)
  /-- Any other tag: contributes nothing to the walk. -/
  | other
deriving DecidableEq

/-- The keyword test of the member-card `<h4>` loop. -/
def h4IsRole (h4 : Str) : Bool :=
  ["chair".data, "member".data, "co-chair".data, "area chair".data,
   "support".data].any fun kw => strContains (pyLower h4) kw

/-- The `<h4>` loop of the labeled-card branch: the last role-like
`<h4>` wins as role text, the first other `<h4>` as affiliation. -/
def h4Fold : List Str → Option Str × Str → Option Str × Str
  | [], st => st
  | h4 :: rest, (aff, role) =>
    if h4IsRole h4 then h4Fold rest (aff, h4)
    else if aff.isNone then h4Fold rest (some h4, role)
    else h4Fold rest (aff, role)

/-- Members contributed by one card (labeled-card branch and the
plain-text fallback of the `<li>` loop). -/
def cardMembers (committee_type : Str) : Card → List CommitteeMember
  | .labeled name h4s =>
    let st := h4Fold h4s (none, [])
    match name with
    | some nm =>
      if nm.isEmpty then []
      else
        let d := detect_position nm st.2 st.2
        [⟨clean_name nm, committee_type, d.1, d.2, st.1⟩]
    | none => []
  | .plain text =>
    if decide (3 ≤ text.length) && decide (text.length ≤ 300) then
      (parse_member_entry text committee_type).toList
    else []

/-- Members contributed by one node of the walk. -/
def nodeMembers (committee_type : Str) : Node → List CommitteeMember
  | .secMembers hasUl cards =>
    if hasUl then (cards.map (cardMembers committee_type)).flatten else []
  | .ulist classes items =>
    if classes.any (fun c => c = "menu".data || c = "social".data
        || c = "socials".data) then []
    else
      items.flatMap fun text =>
        if decide (3 ≤ text.length) && decide (text.length ≤ 300) then
          (parse_member_entry text committee_type).toList
        else []
  | _ => []

/-- The sibling walk of `extract_members_between_headings`: stop at
the end heading (structural equality, as bs4 compares tags) or at
any `<h2>`; accumulate members from the nodes passed. -/
def walkSiblings (endH : Option Node) (committee_type : Str) :
    List Node → List CommitteeMember
  | [] => []
  | n :: rest =>
    if some n = endH then []
    else
      match n with
      | .heading 2 _ => []
      | _ => nodeMembers committee_type n ++ walkSiblings endH committee_type rest

/-- `extract_members_between_headings` from scrape_committees.py:
walk the siblings after the start heading, then deduplicate. -/
def extract_members_between_headings (after : List Node) (endH : Option Node)
    (committee_type : Str) : List CommitteeMember :=
  deduplicate_members (walkSiblings endH committee_type after)

/-- Does a heading's (lower-cased) text contain one of the section
label patterns? -/
def headingMatches (patterns : List Str) (text : Str) : Bool :=
  patterns.any fun p => strContains (pyLower text) p

/-- The first heading at the same or a more significant level — the
`next_heading` search over `headings[idx+1:]`. -/
def findNextHeading (level : Nat) (rest : List Node) : Option Node :=
  rest.find? fun n =>
    match n with
    | .heading l _ => decide (l ≤ level)
    | _ => false

/-- `parse_section_based` from scrape_committees.py: scan headings in
document order; for each heading matching a pattern, extract its
region; return the first non-empty result. -/
def parse_section_based (patterns : List Str) (committee_type : Str) :
    List Node → Option (List CommitteeMember)
  | [] => none
  | n :: rest =>
    match n with
    | .heading level text =>
      if headingMatches patterns text then
        let endH := findNextHeading level rest
        let members := extract_members_between_headings rest endH committee_type
        if members.isEmpty then parse_section_based patterns committee_type rest
        else some members
      else parse_section_based patterns committee_type rest
    | _ => parse_section_based patterns committee_type rest

/-! ## Lemmas about the string primitives -/

theorem pySplitAux_sp (acc : Str) {t : Str} (h : ∀ c ∈ t, pySpace c = true) :
    pySplitAux acc t = if acc.isEmpty then [] else [acc.reverse] := by
  induction t generalizing acc with
  | nil => rfl
  | cons c rest ih =>
    have hc : pySpace c = true := h c (by simp)
    simp only [pySplitAux, hc, if_true]
    have ih0 := ih [] (fun x hx => h x (by simp [hx]))
    by_cases ha : acc.isEmpty
    · simp [ha, ih0]
    · simp [ha, ih0]

theorem pySplitAux_append_sp (acc s : Str) {t : Str}
    (h : ∀ c ∈ t, pySpace c = true) :
    pySplitAux acc (s ++ t) = pySplitAux acc s := by
  induction s generalizing acc with
  | nil =>
    simp only [List.nil_append]
    rw [pySplitAux_sp acc h]
    rfl
  | cons c s ih =>
    simp only [List.cons_append, pySplitAux]
    by_cases hc : pySpace c
    · by_cases ha : acc.isEmpty
      · simp [hc, ha, ih]
      · simp [hc, ha, ih]
    · simp [hc, ih]

theorem pySplit_dropWhile (s : Str) :
    pySplit (s.dropWhile pySpace) = pySplit s := by
  induction s with
  | nil => rfl
  | cons c rest ih =>
    by_cases hc : pySpace c
    · simp only [List.dropWhile, hc]
      rw [ih]
      simp [pySplit, pySplitAux, hc]
    · simp [List.dropWhile, hc]

theorem pyStrip_append_sp (s : Str) :
    ∃ t, s.dropWhile pySpace = pyStrip s ++ t ∧ ∀ c ∈ t, pySpace c = true := by
  refine ⟨((s.dropWhile pySpace).reverse.takeWhile pySpace).reverse, ?_, ?_⟩
  · unfold pyStrip
    generalize List.dropWhile pySpace s = l
    rw [← List.reverse_append, List.takeWhile_append_dropWhile,
      List.reverse_reverse]
  · intro c hc
    rw [List.mem_reverse] at hc
    exact List.mem_takeWhile_imp hc

theorem pySplit_pyStrip (s : Str) : pySplit (pyStrip s) = pySplit s := by
  obtain ⟨t, ht, hsp⟩ := pyStrip_append_sp s
  calc pySplit (pyStrip s)
      = pySplit (pyStrip s ++ t) := (pySplitAux_append_sp [] _ hsp).symm
    _ = pySplit (s.dropWhile pySpace) := by rw [ht]
    _ = pySplit s := pySplit_dropWhile s

theorem pySplitAux_words {acc : Str} {s : Str}
    (hacc : ∀ c ∈ acc, pySpace c = false) :
    ∀ w ∈ pySplitAux acc s, w ≠ [] ∧ ∀ c ∈ w, pySpace c = false := by
  induction s generalizing acc with
  | nil =>
    intro w hw
    simp only [pySplitAux] at hw
    split at hw
    · simp at hw
    · simp only [List.mem_singleton] at hw
      subst hw
      next h =>
      constructor
      · simp only [ne_eq, List.reverse_eq_nil_iff]
        exact fun h2 => h (by simp [h2])
      · intro c hc
        exact hacc c (List.mem_reverse.mp hc)
  | cons c rest ih =>
    intro w hw
    simp only [pySplitAux] at hw
    by_cases hc : pySpace c
    · simp only [hc, if_true] at hw
      by_cases ha : acc.isEmpty
      · simp only [ha, if_true] at hw
        exact ih (by simp) w hw
      · simp only [ha, if_false] at hw
        rcases List.mem_cons.mp hw with h | h
        · subst h
          constructor
          · simp only [ne_eq, List.reverse_eq_nil_iff]
            intro h2
            rw [h2] at ha
            simp at ha
          · intro x hx
            exact hacc x (List.mem_reverse.mp hx)
        · exact ih (by simp) w h
    · simp only [hc, if_false] at hw
      refine ih ?_ w hw
      intro x hx
      rcases List.mem_cons.mp hx with h | h
      · subst h; simpa using hc
      · exact hacc x h

theorem pySplit_words {s : Str} :
    ∀ w ∈ pySplit s, w ≠ [] ∧ ∀ c ∈ w, pySpace c = false :=
  pySplitAux_words (by simp)

theorem pySplitAux_ne_nil {acc : Str} (s : Str) (ha : ¬acc.isEmpty) :
    pySplitAux acc s ≠ [] := by
  induction s generalizing acc with
  | nil => simp [pySplitAux, ha]
  | cons c rest ih =>
    simp only [pySplitAux]
    by_cases hc : pySpace c
    · simp [hc, ha]
    · simp only [hc, if_false]
      exact ih (by simp)

theorem pySplitAux_eq_nil {acc s : Str} (h : pySplitAux acc s = []) :
    ∀ c ∈ s, pySpace c = true := by
  induction s generalizing acc with
  | nil => simp
  | cons c rest ih =>
    simp only [pySplitAux] at h
    by_cases hc : pySpace c
    · simp only [hc, if_true] at h
      by_cases ha : acc.isEmpty
      · simp only [ha, if_true] at h
        intro x hx
        rcases List.mem_cons.mp hx with h2 | h2
        · subst h2; simpa using hc
        · exact ih h x h2
      · simp [ha] at h
    · simp only [hc, if_false] at h
      exact absurd h (pySplitAux_ne_nil rest (by simp))

theorem pySplit_eq_nil_iff {s : Str} :
    pySplit s = [] ↔ ∀ c ∈ s, pySpace c = true := by
  constructor
  · exact pySplitAux_eq_nil
  · intro h
    rw [pySplit, pySplitAux_sp [] h]
    rfl

theorem joinWords_ne_nil {ws : List Str} (hne : ws ≠ [])
    (h : ∀ w ∈ ws, w ≠ []) : joinWords ws ≠ [] := by
  match ws with
  | [] => exact absurd rfl hne
  | [w] => simpa [joinWords] using h w (by simp)
  | w :: w2 :: rest =>
    have hw : w ≠ [] := h w (by simp)
    simp only [joinWords]
    intro hcontra
    rw [List.append_eq_nil] at hcontra
    exact hw hcontra.1

theorem mem_joinWords_of_mem {ws : List Str} {w : Str} {c : Char}
    (hw : w ∈ ws) (hc : c ∈ w) : c ∈ joinWords ws := by
  induction ws with
  | nil => simp at hw
  | cons x rest ih =>
    rcases List.mem_cons.mp hw with h | h
    · subst h
      cases rest with
      | nil => simpa [joinWords] using hc
      | cons y ys =>
        simp only [joinWords]
        exact List.mem_append.mpr (Or.inl hc)
    · cases rest with
      | nil => simp at h
      | cons y ys =>
        simp only [joinWords]
        exact List.mem_append.mpr (Or.inr (List.mem_cons.mpr (Or.inr (ih h))))

theorem mem_pySplitAux_of_mem {acc s : Str} {c : Char}
    (hmem : c ∈ s ∨ c ∈ acc) (hns : pySpace c = false) :
    ∃ w ∈ pySplitAux acc s, c ∈ w := by
  induction s generalizing acc with
  | nil =>
    rcases hmem with h | h
    · simp at h
    · have ha : ¬acc.isEmpty := by
        cases acc with
        | nil => simp at h
        | cons x xs => simp
      refine ⟨acc.reverse, ?_, List.mem_reverse.mpr h⟩
      simp [pySplitAux, ha]
  | cons c0 rest ih =>
    simp only [pySplitAux]
    by_cases hc0 : pySpace c0
    · have hcr : c ∈ rest ∨ c ∈ acc := by
        rcases hmem with h | h
        · rcases List.mem_cons.mp h with h2 | h2
          · subst h2; rw [hc0] at hns; cases hns
          · exact Or.inl h2
        · exact Or.inr h
      by_cases ha : acc.isEmpty
      · have : c ∈ rest := by
          rcases hcr with h | h
          · exact h
          · rw [List.isEmpty_iff.mp ha] at h; simp at h
        simpa [hc0, ha] using ih (Or.inl this)
      · rcases hcr with h | h
        · obtain ⟨w, hw, hcw⟩ := @ih [] (Or.inl h)
          exact ⟨w, by simp [hc0, ha, hw], hcw⟩
        · exact ⟨acc.reverse, by simp [hc0, ha], List.mem_reverse.mpr h⟩
    · have : c ∈ rest ∨ c ∈ c0 :: acc := by
        rcases hmem with h | h
        · rcases List.mem_cons.mp h with h2 | h2
          · subst h2; simp
          · exact Or.inl h2
        · simp [h]
      simpa [hc0] using ih this

theorem mem_clean_name_of_mem {s : Str} {c : Char} (hc : c ∈ s)
    (hns : pySpace c = false) : c ∈ clean_name s := by
  obtain ⟨w, hw, hcw⟩ := @mem_pySplitAux_of_mem [] s c (Or.inl hc) hns
  exact mem_joinWords_of_mem hw hcw

/-! ## C10 — `normalize_affiliation` never yields the empty string -/

/-- C10: `normalize_affiliation` returns `none` exactly when the
input is empty or all whitespace; otherwise it returns the non-empty
string obtained from the input by collapsing whitespace runs to
single spaces and stripping leading/trailing whitespace (which is
`' '.join(s.split())`).  An absent affiliation is therefore always
`None`, never `""`. -/
theorem normalize_affiliation_spec (s : Str) :
    (normalize_affiliation s = none ↔ ∀ c ∈ s, pySpace c = true) ∧
    normalize_affiliation s ≠ some [] ∧
    ((∃ c ∈ s, pySpace c = false) →
      normalize_affiliation s = some (joinWords (pySplit s)) ∧
        joinWords (pySplit s) ≠ []) := by
  unfold normalize_affiliation
  rw [pySplit_pyStrip]
  by_cases hs : s.isEmpty
  · rw [if_pos hs]
    have hnil : s = [] := List.isEmpty_iff.mp hs
    subst hnil
    exact ⟨by simp, by simp, by rintro ⟨c, hc, -⟩; simp at hc⟩
  · rw [if_neg hs]
    by_cases hsp : pySplit s = []
    · have hall := pySplit_eq_nil_iff.mp hsp
      rw [hsp]
      rw [if_pos (by rfl)]
      refine ⟨⟨fun _ => hall, fun _ => rfl⟩, by simp, ?_⟩
      rintro ⟨c, hc, hns⟩
      rw [hall c hc] at hns
      cases hns
    · have hne : joinWords (pySplit s) ≠ [] :=
        joinWords_ne_nil hsp fun w hw => (pySplit_words w hw).1
      rw [if_neg (by simpa [List.isEmpty_iff] using hne)]
      refine ⟨⟨fun h => absurd h (by simp),
        fun hall => absurd (pySplit_eq_nil_iff.mpr hall) hsp⟩,
        fun h => hne (by injection h), fun _ => ⟨rfl, hne⟩⟩

/-- Witness for C10 at concrete inputs. -/
theorem normalize_affiliation_spec_witness :
    normalize_affiliation (" MIT  x ".data) = some ("MIT x".data) ∧
    normalize_affiliation ("   ".data) = none := by
  constructor
  · have h := (normalize_affiliation_spec (" MIT  x ".data)).2.2
      ⟨'M', by decide, by decide⟩
    rw [h.1]
    decide
  · exact (normalize_affiliation_spec ("   ".data)).1.mpr (by decide)

/-! ## Substring lemmas -/

theorem strContains_iff_sub {hay needle : Str} :
    strContains hay needle = true ↔ needle <:+: hay := by
  induction hay with
  | nil =>
    simp only [strContains, List.isEmpty_iff]
    constructor
    · intro h; simp [h]
    · intro h
      simpa using List.eq_nil_of_infix_nil h
  | cons c t ih =>
    simp only [strContains, Bool.or_eq_true]
    rw [List.infix_cons_iff, ih]
    constructor
    · rintro (h | h)
      · exact Or.inl (List.isPrefixOf_iff_prefix.mp h)
      · exact Or.inr h
    · rintro (h | h)
      · exact Or.inl (List.isPrefixOf_iff_prefix.mpr h)
      · exact Or.inr h

theorem strContains_false_of_sub {hay n1 n2 : Str}
    (h : strContains hay n1 = false) (hi : n1 <:+: n2) :
    strContains hay n2 = false := by
  cases h2 : strContains hay n2 with
  | false => rfl
  | true =>
    have := strContains_iff_sub.mp h2
    have := strContains_iff_sub.mpr (hi.trans this)
    rw [this] at h
    cases h

theorem strContains_true_of_sub {hay n1 n2 : Str}
    (h : strContains hay n2 = true) (hi : n1 <:+: n2) :
    strContains hay n1 = true :=
  strContains_iff_sub.mpr (hi.trans (strContains_iff_sub.mp h))

/-! ## C9 — no role keyword defaults to `member` -/

/-- C9: when the combined text (entry text, role text) contains no
occurrence of `"chair"` (which also rules out `"co-chair"`,
`"cochair"`, `"area chair"` and every other chair phrase) and no
occurrence of `"senior pc"`, `detect_position` returns position
`member` with no role title — it is a total function, never an
error. -/
theorem detect_position_default_member (name full_text role_info : Str)
    (hchair :
      strContains (pyLower (full_text ++ ' ' :: role_info)) "chair".data
        = false)
    (hsenior :
      strContains (pyLower (full_text ++ ' ' :: role_info)) "senior pc".data
        = false) :
    detect_position name full_text role_info = ("member".data, none) := by
  unfold detect_position
  have h1 := strContains_false_of_sub hchair
    (⟨"general ".data, [], by decide⟩ : "chair".data <:+: "general chair".data)
  have h2 := strContains_false_of_sub hchair
    (⟨"conference ".data, [], by decide⟩ :
      "chair".data <:+: "conference chair".data)
  have h3 := strContains_false_of_sub hchair
    (⟨"program ".data, [], by decide⟩ : "chair".data <:+: "program chair".data)
  have h4 := strContains_false_of_sub hchair
    (⟨"pc ".data, [], by decide⟩ : "chair".data <:+: "pc chair".data)
  have h5 := strContains_false_of_sub hchair
    (⟨"pc primary ".data, [], by decide⟩ :
      "chair".data <:+: "pc primary chair".data)
  have h6 := strContains_false_of_sub hchair
    (⟨"steering ".data, [], by decide⟩ :
      "chair".data <:+: "steering chair".data)
  have h7 := strContains_false_of_sub hchair
    (⟨"sc ".data, [], by decide⟩ : "chair".data <:+: "sc chair".data)
  have h8 := strContains_false_of_sub hchair
    (⟨"local ".data, [], by decide⟩ : "chair".data <:+: "local chair".data)
  have h9 := strContains_false_of_sub hchair
    (⟨"co-".data, [], by decide⟩ : "chair".data <:+: "co-chair".data)
  have h10 := strContains_false_of_sub hchair
    (⟨"co".data, [], by decide⟩ : "chair".data <:+: "cochair".data)
  have h11 := strContains_false_of_sub hchair
    (⟨"pc co-".data, [], by decide⟩ : "chair".data <:+: "pc co-chair".data)
  have h12 := strContains_false_of_sub hchair
    (⟨"area ".data, [], by decide⟩ : "chair".data <:+: "area chair".data)
  simp [h1, h2, h3, h4, h5, h6, h7, h8, h9, h10, h11, h12, hchair, hsenior]

/-- Witness for C9 at a concrete input. -/
theorem detect_position_default_member_witness :
    detect_position ("Jo Wu".data) ("Jo Wu".data) [] = ("member".data, none) :=
  detect_position_default_member ("Jo Wu".data) ("Jo Wu".data) []
    (by decide) (by decide)

/-! ## C7 — "programme chair" -/

/-- Counterexample for C7: for the entry text `"programme chair"`
(which contains the phrase `"programme chair"` and neither
`"general chair"` nor `"conference chair"`), `detect_position`
returns position `chair` with **no** role title — not the role title
`"Program Chair"` the claim asserts. -/
theorem detect_position_programme_chair_cex :
    strContains (pyLower ("programme chair".data ++ ' ' :: ([] : Str)))
        "programme chair".data = true ∧
    strContains (pyLower ("programme chair".data ++ ' ' :: ([] : Str)))
        "general chair".data = false ∧
    strContains (pyLower ("programme chair".data ++ ' ' :: ([] : Str)))
        "conference chair".data = false ∧
    detect_position ("X".data) ("programme chair".data) []
      = ("chair".data, none) := by
  decide

/-- C7 (amended): on combined text containing `"programme chair"`
and none of the other chair phrases, `detect_position` returns
position `chair` with no role title (the phrase only reaches the
bare-`"chair"` fallback, since `"program chair"` is not a substring
of `"programme chair"`); the role title `"Program Chair"` for
`"programme chair"` is produced only by the scrapers'
`detect_role_title`, which has an explicit `programme chair`
pattern. -/
theorem detect_position_programme_chair_amended :
    (∀ name full_text role_info : Str,
      strContains (pyLower (full_text ++ ' ' :: role_info))
          "programme chair".data = true →
      (∀ p ∈ ["general chair".data, "conference chair".data,
          "program chair".data, "pc chair".data, "pc primary chair".data,
          "steering chair".data, "sc chair".data, "local chair".data,
          "co-chair".data, "cochair".data, "area chair".data,
          "senior pc".data],
        strContains (pyLower (full_text ++ ' ' :: role_info)) p = false) →
      detect_position name full_text role_info = ("chair".data, none)) ∧
    (∀ text heading_text : Str,
      strContains (pyLower (heading_text ++ ' ' :: text))
          "programme chair".data = true →
      strContains (pyLower (heading_text ++ ' ' :: text))
          "general chair".data = false →
      strContains (pyLower (heading_text ++ ' ' :: text))
          "conference chair".data = false →
      detect_role_title text heading_text = some ("Program Chair".data)) := by
  constructor
  · intro name full_text role_info hprog hnone
    have hchair : strContains (pyLower (full_text ++ ' ' :: role_info))
        "chair".data = true :=
      strContains_true_of_sub hprog ⟨"programme ".data, [], by decide⟩
    unfold detect_position
    have g : ∀ p ∈ ["general chair".data, "conference chair".data,
        "program chair".data, "pc chair".data, "pc primary chair".data,
        "steering chair".data, "sc chair".data, "local chair".data,
        "co-chair".data, "cochair".data, "area chair".data,
        "senior pc".data],
        strContains (pyLower (full_text ++ ' ' :: role_info)) p = false :=
      hnone
    have h11 : strContains (pyLower (full_text ++ ' ' :: role_info))
        "pc co-chair".data = false :=
      strContains_false_of_sub (g "co-chair".data (by simp))
        ⟨"pc ".data, [], by decide⟩
    simp [g "general chair".data (by simp), g "conference chair".data (by simp),
      g "program chair".data (by simp), g "pc chair".data (by simp),
      g "pc primary chair".data (by simp), g "steering chair".data (by simp),
      g "sc chair".data (by simp), g "local chair".data (by simp),
      g "co-chair".data (by simp), g "cochair".data (by simp),
      g "area chair".data (by simp), g "senior pc".data (by simp),
      h11, hchair]
  · intro text heading hprog hgen hconf
    unfold detect_role_title rolePatterns
    cases hpc : strContains (pyLower (heading ++ ' ' :: text))
        "program chair".data with
    | true => simp [List.find?, hgen, hconf, hpc]
    | false => simp [List.find?, hgen, hconf, hpc, hprog]

/-- Witness for the amended C7 at concrete inputs. -/
theorem detect_position_programme_chair_amended_witness :
    detect_position ("X".data) ("the programme chair".data) []
        = ("chair".data, none) ∧
    detect_role_title ("programme chair".data) [] =
        some ("Program Chair".data) := by
  constructor
  · exact detect_position_programme_chair_amended.1 ("X".data)
      ("the programme chair".data) [] (by decide)
      (by intro p hp; fin_cases hp <;> decide)
  · exact detect_position_programme_chair_amended.2 ("programme chair".data) []
      (by decide) (by decide) (by decide)

/-! ## C1 — the bracketed-annotation title pair -/

/-- The C1 talk, with the fields the merge reads. -/
def c1Talk : Tqc.Talk :=
  ⟨"Quantum Error Correction via X".data, [], [], [], [], []⟩

/-- The C1 schedule event. -/
def c1Event : Tqc.Event :=
  ⟨"quantum error correction via x [remote]".data, [], [], [], [], []⟩

theorem c1_not_shares_arxiv : ¬ Tqc.sharesArxiv c1Talk c1Event := by
  unfold Tqc.sharesArxiv c1Talk
  simp [pyStrip]

theorem c1_score : Tqc.scoreOf c1Talk c1Event = 125 / 3 := by
  have h1 : Tqc.normalize_title c1Event.title_from_summary ≠ [] := by decide
  have h2 : Tqc.normalize_title c1Talk.title ≠ [] := by decide
  have h3 : (pySplit
      (Tqc.normalize_title c1Event.title_from_summary)).toFinset.Nonempty := by
    decide
  have h4 : (pySplit (Tqc.normalize_title c1Talk.title)).toFinset.Nonempty := by
    decide
  have h5 : ((pySplit (Tqc.normalize_title c1Event.title_from_summary)).toFinset
      ∩ (pySplit (Tqc.normalize_title c1Talk.title)).toFinset).card = 5 := rfl
  have h6 : ((pySplit (Tqc.normalize_title c1Event.title_from_summary)).toFinset
      ∪ (pySplit (Tqc.normalize_title c1Talk.title)).toFinset).card = 6 := rfl
  simp only [Tqc.scoreOf]
  rw [if_neg c1_not_shares_arxiv, if_pos ⟨h1, h2⟩, if_pos ⟨h3, h4⟩, h5, h6]
  norm_num

/-- Counterexample for C1: for the talk title
`"Quantum Error Correction via X"` and the schedule title
`"quantum error correction via x [remote]"`, the scoring matcher's
normalization (`normalize_title` of convert_tqc_to_csv.py) does
**not** map the two titles to the same token set — the bracket
annotation survives as the token `"remote"` — and the matcher scores
the pair `125/3 ≈ 41.7`, which is less than `50`. -/
theorem title_match_c1_cex :
    (pySplit (Tqc.normalize_title
        ("quantum error correction via x [remote]".data))).toFinset ≠
      (pySplit (Tqc.normalize_title
        ("Quantum Error Correction via X".data))).toFinset ∧
    Tqc.scoreOf c1Talk c1Event = 125 / 3 ∧ (125 : ℚ) / 3 < 50 :=
  ⟨by decide, c1_score, by norm_num⟩

/-- C1 (amended): the QIP 2026 normalizer
(generate_csv_with_schedule.py) does strip the bracket annotation and
case, mapping both titles to the same normalized token string; the
TQC scoring matcher's normalizer instead keeps `"remote"` as a token,
so its token sets differ and the matcher scores the pair
`125/3 ≈ 41.7` — above the acceptance threshold 20, but below 50. -/
theorem title_match_c1_amended :
    Qip.normalize_title ("quantum error correction via x [remote]".data) =
      Qip.normalize_title ("Quantum Error Correction via X".data) ∧
    Qip.normalize_title ("Quantum Error Correction via X".data) =
      "quantum error correction via x".data ∧
    pySplit (Tqc.normalize_title
        ("quantum error correction via x [remote]".data)) =
      pySplit (Tqc.normalize_title
        ("Quantum Error Correction via X".data)) ++ ["remote".data] ∧
    Tqc.scoreOf c1Talk c1Event = 125 / 3 ∧
    (20 : ℚ) < 125 / 3 ∧ (125 : ℚ) / 3 < 50 :=
  ⟨by decide, by decide, by decide, c1_score, by norm_num, by norm_num⟩

/-! ## The deduplicator: order, frame and idempotence lemmas -/

theorem strLe_total (a b : Str) : strLe a b = true ∨ strLe b a = true := by
  induction a generalizing b with
  | nil => exact Or.inl rfl
  | cons x xs ih =>
    cases b with
    | nil => exact Or.inr rfl
    | cons y ys =>
      by_cases h1 : x.toNat < y.toNat
      · left; simp [strLe, h1]
      · by_cases h2 : y.toNat < x.toNat
        · right; simp [strLe, h2]
        · rcases ih ys with h | h
          · left; simp [strLe, h1, h2, h]
          · right; simp [strLe, h1, h2, h]

theorem strLe_trans {a b c : Str} (hab : strLe a b = true)
    (hbc : strLe b c = true) : strLe a c = true := by
  induction a generalizing b c with
  | nil => rfl
  | cons x xs ih =>
    cases b with
    | nil => simp [strLe] at hab
    | cons y ys =>
      cases c with
      | nil => simp [strLe] at hbc
      | cons z zs =>
        simp only [strLe] at hab hbc ⊢
        by_cases hxy : x.toNat < y.toNat
        · by_cases hyz : y.toNat < z.toNat
          · simp [show x.toNat < z.toNat by omega]
          · by_cases hzy : z.toNat < y.toNat
            · simp [hyz, hzy] at hbc
            · simp [show x.toNat < z.toNat by omega]
        · by_cases hyx : y.toNat < x.toNat
          · simp [hxy, hyx] at hab
          · by_cases hyz : y.toNat < z.toNat
            · simp [show x.toNat < z.toNat by omega]
            · by_cases hzy : z.toNat < y.toNat
              · simp [hyz, hzy] at hbc
              · have hxz : ¬x.toNat < z.toNat := by omega
                have hzx : ¬z.toNat < x.toNat := by omega
                simp only [hxy, hyx, if_false] at hab
                simp only [hyz, hzy, if_false] at hbc
                simp [hxz, hzx, ih hab hbc]

instance : IsTotal CommitteeMember memberLe :=
  ⟨fun a b => strLe_total a.name b.name⟩

instance : IsTrans CommitteeMember memberLe :=
  ⟨fun _ _ _ => strLe_trans⟩

theorem dedupAux_sublist (seen : List Str) (l : List CommitteeMember) :
    List.Sublist (dedupAux seen l) l := by
  induction l generalizing seen with
  | nil => simp [dedupAux]
  | cons m ms ih =>
    simp only [dedupAux]
    split
    · exact (ih seen).trans (List.sublist_cons_self m ms)
    · exact (ih _).cons₂ m

/-- C4 (amended): the deduplicator never merges records — every
record it returns is an element of its input, completely unchanged;
in particular no affiliation back-fill from a dropped duplicate ever
happens.  (The output is a sublist of the name-sorted input.) -/
theorem deduplicate_members_no_merge (l : List CommitteeMember)
    (m : CommitteeMember) (hm : m ∈ deduplicate_members l) : m ∈ l := by
  have h1 : m ∈ pySortMembers l :=
    (dedupAux_sublist [] (pySortMembers l)).mem hm
  exact (List.perm_insertionSort memberLe l).mem_iff.mp h1

/-- Counterexample for C4: two records with identical name
`"Ann Lee"`; the first (kept) one has no affiliation, the dropped
duplicate has affiliation `"MIT"`.  The kept record's affiliation
stays `none` — it is not back-filled from the dropped record as the
claim asserts. -/
theorem deduplicate_members_no_backfill_cex :
    deduplicate_members
        [⟨"Ann Lee".data, "PC".data, "member".data, none, none⟩,
         ⟨"Ann Lee".data, "PC".data, "member".data, none, some ("MIT".data)⟩]
      = [⟨"Ann Lee".data, "PC".data, "member".data, none, none⟩] := by
  decide

/-- Witness for the amended C4 at a concrete input. -/
theorem deduplicate_members_no_merge_witness :
    (⟨"Ann Lee".data, "PC".data, "member".data, none, none⟩ : CommitteeMember) ∈
      ([⟨"Ann Lee".data, "PC".data, "member".data, none, none⟩,
        ⟨"Ann Lee".data, "PC".data, "member".data, none, some ("MIT".data)⟩] :
        List CommitteeMember) :=
  deduplicate_members_no_merge _ _ (by decide)

/-- Declarative "first record per key is kept": keep the head,
drop every later record with the same `normalize_name` key, recurse. -/
def keepFirstBy : List CommitteeMember → List CommitteeMember
  | [] => []
  | m :: ms =>
    m :: keepFirstBy (ms.filter fun x =>
      decide (normalize_name x.name ≠ normalize_name m.name))
  termination_by l => l.length
  decreasing_by
    simp only [List.length_cons]
    exact Nat.lt_succ_of_le (List.length_filter_le _ ms)

theorem dedupAux_eq_keepFirstBy (seen : List Str)
    (l : List CommitteeMember) :
    dedupAux seen l =
      keepFirstBy (l.filter fun m => decide (normalize_name m.name ∉ seen)) := by
  induction l generalizing seen with
  | nil => simp [dedupAux, keepFirstBy]
  | cons m ms ih =>
    simp only [dedupAux, List.filter_cons]
    by_cases hm : normalize_name m.name ∈ seen
    · rw [if_pos hm, if_neg (by simpa using hm)]
      exact ih seen
    · rw [if_neg hm, if_pos (by simpa using hm)]
      rw [keepFirstBy, ih (normalize_name m.name :: seen)]
      congr 1
      rw [List.filter_filter]
      congr 1
      apply List.filter_congr
      intro x _
      by_cases h1 : normalize_name x.name = normalize_name m.name
      · simp [h1]
      · by_cases h2 : normalize_name x.name ∈ seen
        · simp [h1, h2]
        · simp [h1, h2]

/-- C3 (amended): the deduplicator processes the records in
ascending name order (a stable sort by name), computes each record's
identity key with `normalize_name` — which removes the title tokens
`Dr.`, `Prof.`, `Jr.`, `Sr.`, `Ph.D`, `M.D` at regex word boundaries
(a dot-terminated token is removed only when directly followed by a
word character), collapses whitespace and lower-cases, but does
**not** strip diacritics — keeps the first record for each key, and
drops every later record with the same key. -/
theorem deduplicate_members_keeps_first (l : List CommitteeMember) :
    deduplicate_members l = keepFirstBy (pySortMembers l) := by
  rw [deduplicate_members, dedupAux_eq_keepFirstBy]
  congr 1
  rw [List.filter_eq_self]
  intro m _
  simp

/-- Modelled from the claim's words, for the character repertoire of
the counterexample: the claim's key additionally strips diacritics
from the normalized name. -/
def claimStripDiacritic (c : Char) : Char :=
  if c = 'é' then 'e' else if c = 'í' then 'i' else if c = 'ó' then 'o'
  else if c = 'á' then 'a' else if c = 'ú' then 'u' else c

/-- Modelled from the claim's words: identity key with diacritics
stripped. -/
def claimKey (name : Str) : Str := (normalize_name name).map claimStripDiacritic

/-- Counterexample for C3: `"Jose"` and `"José"` have the same
claim-side identity key (diacritics stripped), so by the claim the
later record would be dropped; the code's `normalize_name` does not
strip diacritics, the keys differ, and `deduplicate_members` keeps
both records. -/
theorem deduplicate_members_diacritics_cex :
    claimKey ("José".data) = claimKey ("Jose".data) ∧
    normalize_name ("José".data) ≠ normalize_name ("Jose".data) ∧
    deduplicate_members
        [⟨"Jose".data, "PC".data, "member".data, none, none⟩,
         ⟨"José".data, "PC".data, "member".data, none, none⟩]
      = [⟨"Jose".data, "PC".data, "member".data, none, none⟩,
         ⟨"José".data, "PC".data, "member".data, none, none⟩] := by
  refine ⟨by decide, by decide, by decide⟩

theorem dedupAux_key_not_seen (seen : List Str) (l : List CommitteeMember) :
    ∀ m ∈ dedupAux seen l, normalize_name m.name ∉ seen := by
  induction l generalizing seen with
  | nil => simp [dedupAux]
  | cons m ms ih =>
    intro x hx
    simp only [dedupAux] at hx
    split at hx
    · exact ih seen x hx
    · rcases List.mem_cons.mp hx with h | h
      · subst h
        next hm => exact hm
      · intro hcon
        exact ih _ x h (List.mem_cons.mpr (Or.inr hcon))

theorem dedupAux_keys_nodup (seen : List Str) (l : List CommitteeMember) :
    ((dedupAux seen l).map fun m => normalize_name m.name).Nodup := by
  induction l generalizing seen with
  | nil => simp [dedupAux]
  | cons m ms ih =>
    simp only [dedupAux]
    split
    · exact ih seen
    · simp only [List.map_cons, List.nodup_cons]
      refine ⟨?_, ih _⟩
      intro hcon
      obtain ⟨x, hx, hkey⟩ := List.mem_map.mp hcon
      exact dedupAux_key_not_seen _ ms x hx (by simp [hkey])

theorem dedupAux_eq_self {seen : List Str} {l : List CommitteeMember}
    (hnodup : (l.map fun m => normalize_name m.name).Nodup)
    (hseen : ∀ m ∈ l, normalize_name m.name ∉ seen) :
    dedupAux seen l = l := by
  induction l generalizing seen with
  | nil => rfl
  | cons m ms ih =>
    simp only [dedupAux]
    rw [if_neg (hseen m (by simp))]
    congr 1
    simp only [List.map_cons, List.nodup_cons] at hnodup
    refine ih hnodup.2 ?_
    intro x hx
    simp only [List.mem_cons]
    rintro (h | h)
    · exact hnodup.1 (List.mem_map.mpr ⟨x, hx, h⟩)
    · exact hseen x (by simp [hx]) h

theorem deduplicate_members_sorted (l : List CommitteeMember) :
    (deduplicate_members l).Sorted memberLe :=
  (List.sorted_insertionSort memberLe l).sublist
    (dedupAux_sublist [] (List.insertionSort memberLe l))

/-- C8: the deduplicator is idempotent — applied to its own output
it returns that output unchanged, as the same sequence.  (The output
is sorted by name, so re-sorting leaves it in place, and all its
normalized-name keys are distinct, so no record is dropped.) -/
theorem deduplicate_members_idempotent (l : List CommitteeMember) :
    deduplicate_members (deduplicate_members l) = deduplicate_members l := by
  have hsort : pySortMembers (deduplicate_members l) = deduplicate_members l :=
    List.Sorted.insertionSort_eq (deduplicate_members_sorted l)
  rw [deduplicate_members, hsort]
  exact dedupAux_eq_self (dedupAux_keys_nodup [] _) (by simp)

/-! ## C5 — multiple matching headings -/

/-- The extraction results of **all** matching headings' regions, in
document order (each region processed independently). -/
def matchingExtractions (patterns : List Str) (committee_type : Str) :
    List Node → List (List CommitteeMember)
  | [] => []
  | n :: rest =>
    match n with
    | .heading level text =>
      if headingMatches patterns text then
        extract_members_between_headings rest (findNextHeading level rest)
            committee_type ::
          matchingExtractions patterns committee_type rest
      else matchingExtractions patterns committee_type rest
    | _ => matchingExtractions patterns committee_type rest

/-- C5 (amended): when several headings match the same committee
type, each matching heading's region is processed independently, but
the Region Locator returns the extraction result of the **first**
matching heading whose region yields a non-empty member list — later
matching regions are ignored, and results are never concatenated;
`none` is returned when every matching region is empty. -/
theorem parse_section_based_first_nonempty (patterns : List Str)
    (committee_type : Str) (doc : List Node) :
    parse_section_based patterns committee_type doc =
      (matchingExtractions patterns committee_type doc).find?
        fun ms => !ms.isEmpty := by
  induction doc with
  | nil => rfl
  | cons n rest ih =>
    cases n with
    | heading level text =>
      simp only [parse_section_based, matchingExtractions]
      by_cases hmatch : headingMatches patterns text
      · simp only [hmatch, if_true, List.find?]
        by_cases hemp : (extract_members_between_headings rest
            (findNextHeading level rest) committee_type).isEmpty
        · simp [hemp, ih]
        · simp [hemp]
      · simp [hmatch, ih]
    | ulist classes items => simpa [parse_section_based, matchingExtractions]
        using ih
    | secMembers hasUl cards => simpa [parse_section_based, matchingExtractions]
        using ih
    | other => simpa [parse_section_based, matchingExtractions] using ih

/-- A two-region document: two headings both matching
`"program committee"`, each followed by a one-member list. -/
def c5Doc : List Node :=
  [.heading 2 ("Program Committee".data),
   .ulist [] ["Ann Lee (MIT)".data],
   .heading 2 ("Program Committee 2".data),
   .ulist [] ["Bob Day (Oxford)".data]]

/-- Counterexample for C5: on `c5Doc`, both headings match, both
regions yield one member each, but `parse_section_based` returns
only the first region's member — not the concatenation of both
regions' results that the claim asserts. -/
theorem parse_section_based_cex :
    parse_section_based ["program committee".data] ("PC".data) c5Doc =
      some [⟨"Ann Lee".data, "PC".data, "member".data, none,
        some ("MIT".data)⟩] ∧
    (matchingExtractions ["program committee".data] ("PC".data) c5Doc).flatten
      = [⟨"Ann Lee".data, "PC".data, "member".data, none, some ("MIT".data)⟩,
         ⟨"Bob Day".data, "PC".data, "member".data, none,
           some ("Oxford".data)⟩] ∧
    ([⟨"Ann Lee".data, "PC".data, "member".data, none, some ("MIT".data)⟩] :
        List CommitteeMember) ≠
      [⟨"Ann Lee".data, "PC".data, "member".data, none, some ("MIT".data)⟩,
       ⟨"Bob Day".data, "PC".data, "member".data, none,
         some ("Oxford".data)⟩] := by
  refine ⟨by decide, by decide, by decide⟩

/-! ## C2 — the Title Matcher's selection rule -/

/-- Token set of a normalized title (claim side). -/
def tokenSet (t : Str) : Finset Str := (pySplit (Tqc.normalize_title t)).toFinset

/-- Jaccard similarity of two finite token sets, with `J(∅,∅) = 0`. -/
def jaccardQ (A B : Finset Str) : ℚ :=
  if (A ∪ B).card = 0 then 0 else ((A ∩ B).card : ℚ) / ((A ∪ B).card : ℚ)

/-- The claim's scoring formula: `100` for a shared external (arXiv)
identifier else `0`, plus `50 ×` the Jaccard similarity of the token
sets of the two normalized titles. -/
def claimScore (talk : Tqc.Talk) (e : Tqc.Event) : ℚ :=
  (if Tqc.sharesArxiv talk e then 100 else 0) +
    50 * jaccardQ (tokenSet e.title_from_summary) (tokenSet talk.title)

/-- The maximum score over a schedule (with floor `0`, every score
being non-negative). -/
def maxScore (talk : Tqc.Talk) : List Tqc.Event → ℚ
  | [] => 0
  | e :: es => max (Tqc.scoreOf talk e) (maxScore talk es)

/-- The claim's selection rule: the earliest event attaining the
maximum score, provided that maximum is strictly above `20` (when it
is, the maximum over all events equals the maximum among events
scoring above `20`); no event otherwise. -/
def claimSelect (talk : Tqc.Talk) (schedule : List Tqc.Event) :
    Option Tqc.Event :=
  if 20 < maxScore talk schedule then
    schedule.find? fun e =>
      decide (Tqc.scoreOf talk e = maxScore talk schedule)
  else none

theorem score_title_part (base : ℚ) (A B : Finset Str) :
    (if A.Nonempty ∧ B.Nonempty then
        base + (if 0 < (A ∪ B).card then
          ((A ∩ B).card : ℚ) / ((A ∪ B).card : ℚ) else 0) * 50
      else base) =
    base + 50 * (if (A ∪ B).card = 0 then 0
      else ((A ∩ B).card : ℚ) / ((A ∪ B).card : ℚ)) := by
  by_cases h : A.Nonempty ∧ B.Nonempty
  · rw [if_pos h]
    by_cases hu : (A ∪ B).card = 0
    · rw [if_pos hu, if_neg (by omega)]
      ring
    · rw [if_neg hu, if_pos (by omega)]
      ring
  · rw [if_neg h]
    have hint : (A ∩ B).card = 0 := by
      rcases Decidable.not_and_iff_or_not.mp h with hA | hA
      · rw [Finset.not_nonempty_iff_eq_empty] at hA
        simp [hA]
      · rw [Finset.not_nonempty_iff_eq_empty] at hA
        simp [hA]
    rw [hint]
    by_cases hu : (A ∪ B).card = 0
    · rw [if_pos hu]
      ring
    · rw [if_neg hu, Nat.cast_zero, zero_div, mul_zero, add_zero]

theorem scoreOf_eq_codeShape (talk : Tqc.Talk) (e : Tqc.Event) :
    Tqc.scoreOf talk e =
      (if (tokenSet e.title_from_summary).Nonempty ∧
          (tokenSet talk.title).Nonempty then
        (if Tqc.sharesArxiv talk e then (100 : ℚ) else 0) +
          (if 0 < (tokenSet e.title_from_summary ∪ tokenSet talk.title).card
            then ((tokenSet e.title_from_summary ∩ tokenSet talk.title).card : ℚ)
              / ((tokenSet e.title_from_summary ∪ tokenSet talk.title).card : ℚ)
            else 0) * 50
      else (if Tqc.sharesArxiv talk e then (100 : ℚ) else 0)) := by
  have hsplit : ∀ t : Str, t = [] → (pySplit t).toFinset = (∅ : Finset Str) := by
    intro t ht
    subst ht
    rfl
  simp only [Tqc.scoreOf, tokenSet]
  by_cases h1 : Tqc.normalize_title e.title_from_summary ≠ [] ∧
      Tqc.normalize_title talk.title ≠ []
  · rw [if_pos h1]
  · have hcond : ¬((pySplit
        (Tqc.normalize_title e.title_from_summary)).toFinset.Nonempty ∧
        (pySplit (Tqc.normalize_title talk.title)).toFinset.Nonempty) := by
      rintro ⟨hA, hB⟩
      rcases Decidable.not_and_iff_or_not.mp h1 with h | h
      · rw [not_not] at h
        rw [hsplit _ h] at hA
        exact Finset.not_nonempty_empty hA
      · rw [not_not] at h
        rw [hsplit _ h] at hB
        exact Finset.not_nonempty_empty hB
    rw [if_neg h1, if_neg hcond]

theorem scoreOf_eq_claimScore (talk : Tqc.Talk) (e : Tqc.Event) :
    Tqc.scoreOf talk e = claimScore talk e := by
  unfold claimScore jaccardQ
  rw [scoreOf_eq_codeShape]
  exact score_title_part _ _ _

theorem findBest_spec (talk : Tqc.Talk) (es : List Tqc.Event)
    (bm : Option Tqc.Event) (bs : ℚ) :
    Tqc.findBest talk es (bm, bs) =
      if 20 < maxScore talk es ∧ bs < maxScore talk es then
        (es.find? fun e => decide (Tqc.scoreOf talk e = maxScore talk es),
          maxScore talk es)
      else (bm, bs) := by
  induction es generalizing bm bs with
  | nil =>
    rw [if_neg]
    · rfl
    · rintro ⟨h, -⟩
      simp only [maxScore] at h
      norm_num at h
  | cons e es ih =>
    simp only [Tqc.findBest, maxScore]
    by_cases hcase : Tqc.scoreOf talk e > bs ∧ Tqc.scoreOf talk e > 20
    · rw [if_pos hcase, ih]
      by_cases h2 : 20 < maxScore talk es ∧
          Tqc.scoreOf talk e < maxScore talk es
      · have hmax : max (Tqc.scoreOf talk e) (maxScore talk es)
            = maxScore talk es := max_eq_right (le_of_lt h2.2)
        simp only [hmax]
        rw [if_pos h2, if_pos ⟨h2.1, by linarith [hcase.1, h2.2]⟩]
        rw [List.find?_cons_of_neg]
        simp only [decide_eq_true_eq]
        exact ne_of_lt h2.2
      · have hle : maxScore talk es ≤ Tqc.scoreOf talk e := by
          rcases Decidable.not_and_iff_or_not.mp h2 with h | h
          · push_neg at h
            linarith [hcase.2]
          · push_neg at h
            exact h
        have hmax : max (Tqc.scoreOf talk e) (maxScore talk es)
            = Tqc.scoreOf talk e := max_eq_left hle
        simp only [hmax]
        rw [if_neg h2, if_pos ⟨hcase.2, hcase.1⟩]
        rw [List.find?_cons_of_pos _ (by simp)]
    · rw [if_neg hcase, ih]
      have hB : Tqc.scoreOf talk e ≤ bs ∨ Tqc.scoreOf talk e ≤ 20 := by
        rcases Decidable.not_and_iff_or_not.mp hcase with h | h
        · exact Or.inl (not_lt.mp h)
        · exact Or.inr (not_lt.mp h)
      by_cases h2 : 20 < maxScore talk es ∧ bs < maxScore talk es
      · have hse : Tqc.scoreOf talk e ≤ maxScore talk es := by
          rcases hB with h | h
          · linarith [h2.2]
          · linarith [h2.1]
        have hmax : max (Tqc.scoreOf talk e) (maxScore talk es)
            = maxScore talk es := max_eq_right hse
        simp only [hmax]
        rw [if_pos h2, if_pos ⟨h2.1, h2.2⟩]
        rw [List.find?_cons_of_neg]
        simp only [decide_eq_true_eq]
        intro hcon
        rcases hB with h | h
        · linarith [h2.2, hcon.le]
        · linarith [h2.1, hcon.le]
      · rw [if_neg h2, if_neg]
        rintro ⟨hm20, hmbs⟩
        rcases Decidable.not_and_iff_or_not.mp h2 with h | h
        · -- maxScore es ≤ 20
          push_neg at h
          have h20s : 20 < Tqc.scoreOf talk e := by
            rcases lt_max_iff.mp hm20 with hh | hh
            · exact hh
            · linarith
          have hbss : bs < Tqc.scoreOf talk e := by
            rcases lt_max_iff.mp hmbs with hh | hh
            · exact hh
            · linarith
          exact hcase ⟨hbss, h20s⟩
        · -- maxScore es ≤ bs
          push_neg at h
          have hbss : bs < Tqc.scoreOf talk e := by
            rcases lt_max_iff.mp hmbs with hh | hh
            · exact hh
            · linarith
          have h20s : 20 < Tqc.scoreOf talk e := by
            rcases lt_max_iff.mp hm20 with hh | hh
            · exact hh
            · linarith
          exact hcase ⟨hbss, h20s⟩

theorem findBest_eq_claimSelect (talk : Tqc.Talk)
    (schedule : List Tqc.Event) :
    (Tqc.findBest talk schedule (none, 0)).1 = claimSelect talk schedule := by
  rw [findBest_spec, claimSelect]
  by_cases h : 20 < maxScore talk schedule
  · rw [if_pos ⟨h, by linarith⟩, if_pos h]
  · rw [if_neg (fun hc => h hc.1), if_neg h]

/-- C2: for every talk and every finite schedule, the merge scores
each event by `100` for a shared external (arXiv) identifier else
`0`, plus `50 ×` the Jaccard similarity of the token sets of the two
normalized titles (`scoreOf = claimScore`); it attaches to the talk
the earliest event attaining the maximum score when that maximum is
strictly above `20` (`claimSelect`, ties broken by encounter order),
copying the event's date, time, duration and speaker onto the talk,
and attaches no event when no event scores above `20`. -/
theorem merge_schedule_with_talks_spec :
    (∀ (talk : Tqc.Talk) (e : Tqc.Event),
      Tqc.scoreOf talk e = claimScore talk e) ∧
    ∀ (talks : List Tqc.Talk) (schedule : List Tqc.Event),
      (Tqc.merge_schedule_with_talks talks schedule).1 =
        talks.map (fun t => Tqc.applyMatch t (claimSelect t schedule)) ∧
      (Tqc.merge_schedule_with_talks talks schedule).2 =
        (talks.filter fun t => (claimSelect t schedule).isSome).length := by
  refine ⟨scoreOf_eq_claimScore, ?_⟩
  intro talks schedule
  induction talks with
  | nil => exact ⟨rfl, rfl⟩
  | cons t ts ih =>
    simp only [Tqc.merge_schedule_with_talks, findBest_eq_claimSelect,
      List.map_cons, List.filter_cons]
    refine ⟨by rw [ih.1], ?_⟩
    cases hsel : (claimSelect t schedule).isSome with
    | true =>
      simp [hsel, ih.2]
      omega
    | false => simp [hsel, ih.2]

/-! ## C6 — character-class and word-shape lemmas -/

theorem isUpper_of_range {c : Char} (h65 : 65 ≤ c.toNat) (h90 : c.toNat ≤ 90) :
    c.isUpper = true := by
  unfold Char.isUpper
  unfold Char.toNat at h65 h90
  simp only [Bool.and_eq_true, decide_eq_true_eq]
  constructor
  · rw [ge_iff_le, UInt32.le_def, BitVec.le_def]
    simpa using h65
  · rw [UInt32.le_def, BitVec.le_def]
    simpa using h90

theorem isLower_of_range {c : Char} (h97 : 97 ≤ c.toNat)
    (h122 : c.toNat ≤ 122) : c.isLower = true := by
  unfold Char.isLower
  unfold Char.toNat at h97 h122
  simp only [Bool.and_eq_true, decide_eq_true_eq]
  constructor
  · rw [ge_iff_le, UInt32.le_def, BitVec.le_def]
    simpa using h97
  · rw [UInt32.le_def, BitVec.le_def]
    simpa using h122

theorem toLower_ne_range {c : Char} (h : Char.toLower c ≠ c) :
    65 ≤ c.toNat ∧ c.toNat ≤ 90 := by
  unfold Char.toLower at h
  by_cases hc : c.toNat ≥ 65 ∧ c.toNat ≤ 90
  · exact hc
  · exact absurd (if_neg hc) h

theorem toUpper_ne_range {c : Char} (h : Char.toUpper c ≠ c) :
    97 ≤ c.toNat ∧ c.toNat ≤ 122 := by
  unfold Char.toUpper at h
  by_cases hc : c.toNat ≥ 97 ∧ c.toNat ≤ 122
  · exact hc
  · exact absurd (if_neg hc) h

theorem pySpace_false_of_ge {c : Char} (h : 65 ≤ c.toNat) :
    pySpace c = false := by
  cases hsp : pySpace c with
  | false => rfl
  | true =>
    exfalso
    simp only [pySpace, Bool.or_eq_true, decide_eq_true_eq] at hsp
    rcases hsp with ((((h1 | h1) | h1) | h1) | h1) | h1 <;> subst h1 <;>
      exact absurd h (by decide)

theorem map_eq_self_of_fixed {l : Str} {f : Char → Char}
    (h : ∀ c ∈ l, f c = c) : l.map f = l := by
  induction l with
  | nil => rfl
  | cons c t ih =>
    simp only [List.map_cons, h c (by simp)]
    rw [ih fun x hx => h x (by simp [hx])]

theorem exists_ne_of_ne_map {l : Str} {f : Char → Char} (h : l ≠ l.map f) :
    ∃ c ∈ l, f c ≠ c := by
  by_contra hcon
  push_neg at hcon
  exact h (map_eq_self_of_fixed hcon).symm

theorem map_ne_of_mem {l : Str} {f : Char → Char} {c : Char} (hc : c ∈ l)
    (hfc : f c ≠ c) : l.map f ≠ l := by
  induction l with
  | nil => simp at hc
  | cons d t ih =>
    intro h
    simp only [List.map_cons, List.cons.injEq] at h
    rcases List.mem_cons.mp hc with h2 | h2
    · subst h2
      exact hfc h.1
    · exact ih h2 h.2

theorem joinWords_rev_head {ws : List Str}
    (hw : ∀ w ∈ ws, w ≠ [] ∧ ∀ c ∈ w, pySpace c = false) (hne : ws ≠ []) :
    ∃ c t, (joinWords ws).reverse = c :: t ∧ pySpace c = false := by
  induction ws with
  | nil => exact absurd rfl hne
  | cons w rest ih =>
    cases rest with
    | nil =>
      have hwp := hw w (by simp)
      obtain ⟨c, t, hct⟩ := List.exists_cons_of_ne_nil
        (by simpa [List.reverse_eq_nil_iff] using hwp.1 :
          w.reverse ≠ [])
      refine ⟨c, t, by simpa [joinWords] using hct, ?_⟩
      exact hwp.2 c (List.mem_reverse.mp (by simp [hct]))
    | cons y ys =>
      obtain ⟨c, t, hct, hc⟩ := ih (fun x hx => hw x (by simp [hx]))
        (by simp)
      refine ⟨c, t ++ (' ' :: w.reverse), ?_, hc⟩
      show (w ++ ' ' :: joinWords (y :: ys)).reverse = _
      rw [List.reverse_append, List.reverse_cons, hct]
      simp

theorem pyStrip_joinWords {ws : List Str}
    (hw : ∀ w ∈ ws, w ≠ [] ∧ ∀ c ∈ w, pySpace c = false) :
    pyStrip (joinWords ws) = joinWords ws := by
  cases ws with
  | nil => rfl
  | cons w rest =>
    have hwp := hw w (by simp)
    obtain ⟨c, t, hct⟩ := List.exists_cons_of_ne_nil hwp.1
    have hc : pySpace c = false := hwp.2 c (by simp [hct])
    have hhead : joinWords (w :: rest) = c :: (t ++ (joinWords (w :: rest)).drop w.length) := by
      cases rest with
      | nil => simp [joinWords, hct]
      | cons y ys => simp [joinWords, hct]
    obtain ⟨c2, t2, hct2, hc2⟩ := joinWords_rev_head hw (by simp)
    unfold pyStrip
    rw [hhead]
    rw [List.dropWhile_cons_of_neg (by simp [hc])]
    rw [← hhead, hct2]
    rw [List.dropWhile_cons_of_neg (by simp [hc2])]
    rw [← hct2, List.reverse_reverse]

theorem clean_name_strip (s : Str) : pyStrip (clean_name s) = clean_name s :=
  pyStrip_joinWords fun w hw => pySplit_words w hw

theorem clean_name_ne_lower {s : Str} (h : s ≠ pyLower s) :
    clean_name s ≠ pyLower (clean_name s) := by
  obtain ⟨c, hcs, hc⟩ := exists_ne_of_ne_map h
  have hrange := toLower_ne_range hc
  have hns : pySpace c = false := pySpace_false_of_ge hrange.1
  have hmem : c ∈ clean_name s := mem_clean_name_of_mem hcs hns
  exact fun hcon => map_ne_of_mem hmem hc hcon.symm

theorem clean_name_ne_upper {s : Str} (h : s ≠ pyUpper s) :
    clean_name s ≠ pyUpper (clean_name s) := by
  obtain ⟨c, hcs, hc⟩ := exists_ne_of_ne_map h
  have hrange := toUpper_ne_range hc
  have hns : pySpace c = false := pySpace_false_of_ge (by omega)
  have hmem : c ∈ clean_name s := mem_clean_name_of_mem hcs hns
  exact fun hcon => map_ne_of_mem hmem hc hcon.symm

theorem clean_name_ne_nil {s : Str} (h : s ≠ pyLower s) :
    clean_name s ≠ [] := by
  intro h0
  exact clean_name_ne_lower h (by rw [h0]; rfl)

theorem pyIsUpper_false_of_lower_mem {t : Str} {c : Char} (hc : c ∈ t)
    (hl : c.isLower = true) : pyIsUpper t = false := by
  have : t.any (fun c => c.isLower) = true :=
    List.any_eq_true.mpr ⟨c, hc, hl⟩
  simp [pyIsUpper, this]

theorem pyIsLower_false_of_upper_mem {t : Str} {c : Char} (hc : c ∈ t)
    (hu : c.isUpper = true) : pyIsLower t = false := by
  have : t.any (fun c => c.isUpper) = true :=
    List.any_eq_true.mpr ⟨c, hc, hu⟩
  simp [pyIsLower, this]

theorem joinWords_cons_length (w : Str) (ws : List Str) :
    (joinWords (w :: ws)).length =
      w.length + (if ws.isEmpty then 0 else 1 + (joinWords ws).length) := by
  cases ws with
  | nil => simp [joinWords]
  | cons y ys =>
    simp [joinWords]
    omega

theorem joinWords_length_ge {ws : List Str} (hw : ∀ w ∈ ws, w ≠ []) :
    2 * ws.length - 1 ≤ (joinWords ws).length := by
  induction ws with
  | nil => simp [joinWords]
  | cons w rest ih =>
    have hw1 : 1 ≤ w.length := by
      have := hw w (by simp)
      cases w with
      | nil => exact absurd rfl this
      | cons c t => simp
    rw [joinWords_cons_length]
    cases rest with
    | nil => simpa using hw1
    | cons y ys =>
      have h2 := ih fun x hx => hw x (by simp [hx])
      rw [if_neg (by simp : ¬((y :: ys).isEmpty = true))]
      simp only [List.length_cons] at h2 ⊢
      omega

theorem pySplitAux_join_le (acc s : Str) :
    (joinWords (pySplitAux acc s)).length ≤ acc.length + s.length := by
  induction s generalizing acc with
  | nil =>
    simp only [pySplitAux]
    by_cases ha : acc.isEmpty
    · simp [ha, joinWords]
    · simp [ha, joinWords]
  | cons c rest ih =>
    simp only [pySplitAux]
    by_cases hc : pySpace c
    · rw [if_pos hc]
      by_cases ha : acc.isEmpty
      · rw [if_pos ha]
        have := ih []
        simp only [List.length_nil] at this
        simp only [List.length_cons]
        omega
      · rw [if_neg ha]
        rw [joinWords_cons_length]
        by_cases hrest : (pySplitAux ([] : Str) rest).isEmpty
        · rw [if_pos hrest]
          simp only [List.length_reverse, List.length_cons]
          omega
        · rw [if_neg hrest]
          have := ih []
          simp only [List.length_nil] at this
          simp only [List.length_reverse, List.length_cons]
          omega
    · rw [if_neg (by simp [hc])]
      have := ih (c :: acc)
      simp only [List.length_cons] at this ⊢
      omega

theorem clean_name_length_le (s : Str) : (clean_name s).length ≤ s.length := by
  have := pySplitAux_join_le [] s
  simpa [clean_name, pySplit] using this

theorem pySplitAux_join_ge (acc s : Str) :
    (s.filter fun c => !pySpace c).length + acc.length ≤
      (joinWords (pySplitAux acc s)).length := by
  induction s generalizing acc with
  | nil =>
    simp only [pySplitAux, List.filter_nil, List.length_nil]
    by_cases ha : acc.isEmpty
    · simp [List.isEmpty_iff.mp ha, joinWords]
    · simp [ha, joinWords]
  | cons c rest ih =>
    simp only [pySplitAux, List.filter_cons]
    by_cases hc : pySpace c
    · rw [if_pos hc, if_neg (by simp [hc])]
      by_cases ha : acc.isEmpty
      · rw [if_pos ha]
        have := ih []
        simp only [List.length_nil] at this
        have ha0 : acc.length = 0 := by
          simp [List.isEmpty_iff.mp ha]
        omega
      · rw [if_neg ha]
        rw [joinWords_cons_length]
        by_cases hrest : (pySplitAux ([] : Str) rest).isEmpty
        · have hnil : pySplitAux ([] : Str) rest = [] :=
            List.isEmpty_iff.mp hrest
          have hall := pySplitAux_eq_nil hnil
          have hfil : (rest.filter fun c => !pySpace c) = [] := by
            rw [List.filter_eq_nil_iff]
            intro a ha2
            simp [hall a ha2]
          rw [if_pos hrest, hfil]
          simp
        · rw [if_neg hrest]
          have := ih []
          simp only [List.length_nil] at this
          simp only [List.length_reverse]
          omega
    · rw [if_pos (by simp [hc]), if_neg (by simp [hc])]
      have := ih (c :: acc)
      simp only [List.length_cons] at this ⊢
      omega

theorem clean_name_length_ge_filter (s : Str) :
    (s.filter fun c => !pySpace c).length ≤ (clean_name s).length := by
  have := pySplitAux_join_ge [] s
  simpa [clean_name, pySplit] using this

theorem pySplitAux_append_word {w : Str} (acc s : Str)
    (hw : ∀ c ∈ w, pySpace c = false) :
    pySplitAux acc (w ++ s) = pySplitAux (w.reverse ++ acc) s := by
  induction w generalizing acc with
  | nil => simp
  | cons c t ih =>
    have hc : pySpace c = false := hw c (by simp)
    simp only [List.cons_append, pySplitAux]
    rw [if_neg (by simp [hc])]
    show pySplitAux (c :: acc) (t ++ s) = pySplitAux ((c :: t).reverse ++ acc) s
    rw [ih (c :: acc) fun x hx => hw x (by simp [hx])]
    simp

theorem pySplitAux_all_word {w : Str} (acc : Str)
    (hw : ∀ c ∈ w, pySpace c = false) :
    pySplitAux acc w =
      if acc.isEmpty ∧ w.isEmpty then [] else [acc.reverse ++ w] := by
  have := pySplitAux_append_word acc ([] : Str) hw
  rw [List.append_nil] at this
  rw [this]
  simp only [pySplitAux]
  by_cases hacc : acc.isEmpty
  · rw [List.isEmpty_iff.mp hacc]
    cases w with
    | nil => simp
    | cons c t => simp
  · have hra : ¬(w.reverse ++ acc).isEmpty = true := by
      simp only [List.isEmpty_iff, List.append_eq_nil]
      intro h
      exact hacc (by simp [h.2])
    rw [if_neg hra]
    have hne : ¬(acc.isEmpty = true ∧ w.isEmpty = true) := fun h => hacc h.1
    rw [if_neg hne]
    simp

theorem pySplit_joinWords {ws : List Str}
    (hw : ∀ w ∈ ws, w ≠ [] ∧ ∀ c ∈ w, pySpace c = false) :
    pySplit (joinWords ws) = ws := by
  induction ws with
  | nil => rfl
  | cons w rest ih =>
    have hwp := hw w (by simp)
    cases rest with
    | nil =>
      show pySplitAux [] w = [w]
      rw [pySplitAux_all_word [] hwp.2]
      have : ¬w.isEmpty = true := by
        simpa [List.isEmpty_iff] using hwp.1
      simp [this]
    | cons y ys =>
      show pySplitAux [] (w ++ ' ' :: joinWords (y :: ys)) = w :: y :: ys
      rw [pySplitAux_append_word [] _ hwp.2, List.append_nil]
      have hrev : ¬(w.reverse.isEmpty = true) := by
        simpa [List.isEmpty_iff, List.reverse_eq_nil_iff] using hwp.1
      simp only [pySplitAux]
      rw [if_pos (show pySpace ' ' = true from rfl), if_neg hrev,
        List.reverse_reverse]
      have := ih fun x hx => hw x (by simp [hx])
      rw [show pySplitAux ([] : Str) (joinWords (y :: ys)) = pySplit (joinWords (y :: ys)) from rfl, this]

theorem clean_name_joinWords {ws : List Str}
    (hw : ∀ w ∈ ws, w ≠ [] ∧ ∀ c ∈ w, pySpace c = false) :
    clean_name (joinWords ws) = joinWords ws := by
  rw [clean_name, pySplit_joinWords hw]

theorem dropWhile_append_sp {pre : Str} (x : Str)
    (h : ∀ c ∈ pre, pySpace c = true) :
    List.dropWhile pySpace (pre ++ x) = List.dropWhile pySpace x := by
  induction pre with
  | nil => rfl
  | cons c t ih =>
    rw [List.cons_append, List.dropWhile_cons_of_pos (by simp [h c (by simp)])]
    exact ih fun a ha => h a (by simp [ha])

theorem dropWhile_eq_self_of_all {l : Str}
    (h : ∀ c ∈ l, pySpace c = false) : List.dropWhile pySpace l = l := by
  cases l with
  | nil => rfl
  | cons c t => exact List.dropWhile_cons_of_neg (by simp [h c (by simp)])

theorem pySplitAux_single_of_ne {acc s w : Str} (hacc : acc ≠ [])
    (h : pySplitAux acc s = [w]) :
    ∃ mid post, w = acc.reverse ++ mid ∧ s = mid ++ post ∧
      ∀ c ∈ post, pySpace c = true := by
  induction s generalizing acc with
  | nil =>
    simp only [pySplitAux] at h
    rw [if_neg (by simpa [List.isEmpty_iff] using hacc)] at h
    refine ⟨[], [], ?_, rfl, by simp⟩
    simp only [List.cons.injEq] at h
    simp [h.1]
  | cons c rest ih =>
    simp only [pySplitAux] at h
    by_cases hc : pySpace c
    · rw [if_pos hc, if_neg (by simpa [List.isEmpty_iff] using hacc)] at h
      simp only [List.cons.injEq] at h
      refine ⟨[], c :: rest, by simp [h.1], by simp, ?_⟩
      intro a ha
      rcases List.mem_cons.mp ha with h2 | h2
      · subst h2; exact hc
      · exact pySplitAux_eq_nil h.2 a h2
    · rw [if_neg (by simp [hc])] at h
      obtain ⟨mid, post, hw, hs, hp⟩ := @ih (c :: acc) (by simp) h
      refine ⟨c :: mid, post, ?_, by simp [hs], hp⟩
      rw [hw]
      simp

theorem pySplit_single {p w : Str} (h : pySplit p = [w]) :
    ∃ pre post, p = pre ++ w ++ post ∧ (∀ c ∈ pre, pySpace c = true) ∧
      ∀ c ∈ post, pySpace c = true := by
  induction p with
  | nil => simp [pySplit, pySplitAux] at h
  | cons c rest ih =>
    simp only [pySplit, pySplitAux] at h
    by_cases hc : pySpace c
    · rw [if_pos hc] at h
      have h2 : pySplitAux [] rest = [w] := by simpa using h
      obtain ⟨pre, post, hp, hpre, hpost⟩ := ih h2
      refine ⟨c :: pre, post, by simp [hp], ?_, hpost⟩
      intro a ha
      rcases List.mem_cons.mp ha with h2 | h2
      · subst h2; exact hc
      · exact hpre a h2
    · rw [if_neg (by simp [hc])] at h
      obtain ⟨mid, post, hw, hs, hp⟩ :=
        @pySplitAux_single_of_ne [c] rest w (by simp) h
      refine ⟨[], post, ?_, by simp, hp⟩
      simp only [List.reverse_cons, List.reverse_nil, List.nil_append] at hw
      simp [hw, hs]

theorem pyStrip_of_single {p w : Str} (h : pySplit p = [w]) : pyStrip p = w := by
  have hwprop : w ≠ [] ∧ ∀ c ∈ w, pySpace c = false :=
    pySplit_words w (by rw [h]; simp)
  obtain ⟨pre, post, hp, hpre, hpost⟩ := pySplit_single h
  obtain ⟨c, w2, hw⟩ := List.exists_cons_of_ne_nil hwprop.1
  have hc : pySpace c = false := hwprop.2 c (by simp [hw])
  unfold pyStrip
  subst hp
  rw [List.append_assoc, dropWhile_append_sp _ hpre]
  have hstep : List.dropWhile pySpace (w ++ post) = w ++ post := by
    rw [hw, List.cons_append, List.dropWhile_cons_of_neg (by simp [hc])]
  rw [hstep]
  have hrev : (w ++ post).reverse = post.reverse ++ w.reverse := by simp
  rw [hrev, dropWhile_append_sp _ (fun a ha => hpost a (List.mem_reverse.mp ha)),
    dropWhile_eq_self_of_all
      (fun a ha => hwprop.2 a (List.mem_reverse.mp ha)),
    List.reverse_reverse]

theorem clean_name_ge3_strip {p : Str} (h3 : 3 ≤ (pyStrip p).length) :
    3 ≤ (clean_name (pyStrip p)).length := by
  rw [clean_name, pySplit_pyStrip]
  match hsp : pySplit p with
  | [] =>
    exfalso
    have hall := pySplit_eq_nil_iff.mp hsp
    have hstrip : pyStrip p = [] := by
      unfold pyStrip
      rw [List.dropWhile_eq_nil_iff.mpr hall]
      rfl
    rw [hstrip] at h3
    simp at h3
  | [w] =>
    rw [pyStrip_of_single hsp] at h3
    simpa [joinWords] using h3
  | w1 :: w2 :: ws =>
    have hwords : ∀ w ∈ w1 :: w2 :: ws, w ≠ [] := by
      intro w hw
      exact (pySplit_words w (hsp ▸ hw)).1
    have := joinWords_length_ge hwords
    simp only [List.length_cons] at this
    omega

theorem filter_imp_length {l : Str} {p q : Char → Bool}
    (h : ∀ c, p c = true → q c = true) :
    (l.filter p).length ≤ (l.filter q).length := by
  induction l with
  | nil => simp
  | cons c t ih =>
    simp only [List.filter_cons]
    cases hp : p c with
    | true =>
      rw [if_pos rfl, if_pos (h c hp)]
      simpa using ih
    | false =>
      rw [if_neg (by simp)]
      cases hq : q c with
      | true =>
        rw [if_pos rfl]
        simp only [List.length_cons]
        omega
      | false => rw [if_neg (by simp)]; exact ih

theorem uint32_le_toNat {a : UInt32} {n : Nat} (hn : n < 4294967296)
    (h : (UInt32.ofNat n) ≤ a) : n ≤ a.toNat := by
  rw [UInt32.le_def, BitVec.le_def] at h
  have hpow : (2 : Nat) ^ 32 = 4294967296 := by norm_num
  have h2 : (UInt32.ofNat n).toBitVec.toNat = n % 4294967296 := by
    rw [show (UInt32.ofNat n).toBitVec = BitVec.ofNat 32 n from rfl,
      BitVec.toNat_ofNat, hpow]
  rw [h2, Nat.mod_eq_of_lt hn] at h
  exact h

theorem isAlpha_not_space {c : Char} (h : c.isAlpha = true) :
    pySpace c = false := by
  unfold Char.isAlpha at h
  rcases Bool.or_eq_true _ _ |>.mp h with h2 | h2
  · unfold Char.isUpper at h2
    rcases Bool.and_eq_true _ _ |>.mp h2 with ⟨h3, -⟩
    simp only [ge_iff_le, decide_eq_true_eq] at h3
    exact pySpace_false_of_ge (uint32_le_toNat (by omega) h3)
  · unfold Char.isLower at h2
    rcases Bool.and_eq_true _ _ |>.mp h2 with ⟨h3, -⟩
    simp only [ge_iff_le, decide_eq_true_eq] at h3
    have : (97 : Nat) ≤ c.toNat := uint32_le_toNat (by omega) h3
    exact pySpace_false_of_ge (by omega)

/-- The name returned by the Field Extractor has one of three
shapes: a join of whitespace-free words (`' Site '` branch), a
stripped string (parenthesis / dash / comma branches), or the whole
entry text (fallback branch). -/
theorem extract_name_shape (text : Str) :
    (∃ ws : List Str, (∀ w ∈ ws, w ≠ [] ∧ ∀ c ∈ w, pySpace c = false) ∧
      (extract_name_affiliation_role text).1 = joinWords ws) ∨
    (∃ p, (extract_name_affiliation_role text).1 = pyStrip p) ∨
    (extract_name_affiliation_role text).1 = text := by
  unfold extract_name_affiliation_role
  by_cases h1 : strContains text (" Site ".data)
  · rw [if_pos h1]
    left
    exact ⟨_, fun w hw => pySplit_words w (List.mem_of_mem_take hw), rfl⟩
  · rw [if_neg h1]
    by_cases h2 : strContains text ("(".data) ∧ strContains text (")".data)
    · rw [if_pos h2]
      right; left
      cases hidx : ((splitOnce ("(".data) text).2.getD []).findIdx? (· = ')') with
      | some k =>
        simp only [hidx]
        exact ⟨_, rfl⟩
      | none =>
        simp only [hidx]
        exact ⟨_, rfl⟩
    · rw [if_neg h2]
      by_cases h3 : strContains text (" - ".data) = true ∨
          strContains text (" – ".data) = true
      · rw [if_pos h3]
        right; left
        simp only []
        by_cases hsep : strContains text (" - ".data) = true
        · rw [if_pos hsep]
          apply Exists.intro
          split
          · rfl
          · rfl
        · rw [if_neg hsep]
          apply Exists.intro
          split
          · rfl
          · rfl
      · rw [if_neg h3]
        by_cases h4 : strContains text (",".data)
        · rw [if_pos h4]
          right; left
          apply Exists.intro
          simp only []
          split
          · rfl
          · rfl
        · rw [if_neg h4]
          right; right
          rfl

/-- Dissection of a successful `parse_member_entry`: the stored name
is the cleaned extracted name, and the extracted name passed the
length and mixed-case checks; the entry text passed the
three-alphabetic-characters check. -/
theorem parse_member_entry_name {text committee_type : Str}
    {m : CommitteeMember} (h : parse_member_entry text committee_type = some m) :
    m.name = clean_name (extract_name_affiliation_role text).1 ∧
    3 ≤ (extract_name_affiliation_role text).1.length ∧
    (extract_name_affiliation_role text).1.length ≤ 100 ∧
    (extract_name_affiliation_role text).1 ≠
      pyLower (extract_name_affiliation_role text).1 ∧
    (extract_name_affiliation_role text).1 ≠
      pyUpper (extract_name_affiliation_role text).1 ∧
    3 ≤ (text.filter Char.isAlpha).length := by
  simp only [parse_member_entry] at h
  by_cases c1 : (blacklist_nav.any fun item =>
      strContains (pyLower text) item && decide (text.length < 100)
        && !looksLikePerson text) = true
  · rw [if_pos c1] at h
    simp at h
  rw [if_neg c1] at h
  by_cases c2 : (blacklist_primary.any fun item =>
      decide (item = pyLower text)
        || (strContains (pyLower text) item && decide (text.length < 30))) = true
  · rw [if_pos c2] at h
    simp at h
  rw [if_neg c2] at h
  by_cases c3 : (pyIsUpper text || strContains text ("http://".data)
      || strContains text ("https://".data)
      || strContains text ("www.".data)) = true
  · rw [if_pos c3] at h
    simp at h
  rw [if_neg c3] at h
  by_cases c4 : decide ((text.filter Char.isAlpha).length < 3) = true
  · rw [if_pos c4] at h
    simp at h
  rw [if_neg c4] at h
  by_cases c5 : (decide ((pySplit text).length < 2)
      && !strContains text ("(".data)) = true
  · rw [if_pos c5] at h
    simp at h
  rw [if_neg c5] at h
  by_cases c6 : (decide ((extract_name_affiliation_role text).1.length < 3)
      || decide (100 < (extract_name_affiliation_role text).1.length)) = true
  · rw [if_pos c6] at h
    simp at h
  rw [if_neg c6] at h
  by_cases c7 : (decide ((extract_name_affiliation_role text).1 =
        pyLower (extract_name_affiliation_role text).1)
      || decide ((extract_name_affiliation_role text).1 =
        pyUpper (extract_name_affiliation_role text).1)) = true
  · rw [if_pos c7] at h
    simp at h
  rw [if_neg c7] at h
  simp only [Bool.or_eq_true, decide_eq_true_eq, not_or] at c4 c6 c7
  injection h with h
  subst h
  refine ⟨rfl, by omega, by omega, c7.1, c7.2, by omega⟩

/-- C6 (amended): every `PersonRecord` produced by
`parse_member_entry` — the non-structured-card extraction path — has
a name that is non-empty, equal to its own whitespace-strip, not
entirely upper-case, not entirely lower-case (it contains both an
upper-case and a lower-case letter), and of length between 3 and 100
after normalization.  Records built from structured member cards
(`<h3>`/`<h4>` labels) bypass these checks and can violate the
invariant. -/
theorem parse_member_entry_invariant (text committee_type : Str)
    (m : CommitteeMember)
    (h : parse_member_entry text committee_type = some m) :
    m.name ≠ [] ∧ pyStrip m.name = m.name ∧ pyIsUpper m.name = false ∧
    pyIsLower m.name = false ∧ 3 ≤ m.name.length ∧ m.name.length ≤ 100 := by
  obtain ⟨hstore, h3, h100, hlow, hup, halpha⟩ := parse_member_entry_name h
  rw [hstore]
  refine ⟨clean_name_ne_nil hlow, clean_name_strip _, ?_, ?_, ?_,
    (clean_name_length_le _).trans h100⟩
  · -- not all upper: the name kept a lower-case letter
    obtain ⟨c, hcs, hc⟩ := exists_ne_of_ne_map hup
    have hrange := toUpper_ne_range hc
    have hns : pySpace c = false := pySpace_false_of_ge (by omega)
    exact pyIsUpper_false_of_lower_mem (mem_clean_name_of_mem hcs hns)
      (isLower_of_range hrange.1 hrange.2)
  · -- not all lower: the name kept an upper-case letter
    obtain ⟨c, hcs, hc⟩ := exists_ne_of_ne_map hlow
    have hrange := toLower_ne_range hc
    have hns : pySpace c = false := pySpace_false_of_ge hrange.1
    exact pyIsLower_false_of_upper_mem (mem_clean_name_of_mem hcs hns)
      (isUpper_of_range hrange.1 hrange.2)
  · -- length at least 3, by the shape of the extracted name
    rcases extract_name_shape text with ⟨ws, hws, heq⟩ | ⟨p, heq⟩ | heq
    · rw [heq] at h3 ⊢
      rw [clean_name_joinWords hws]
      exact h3
    · rw [heq] at h3 ⊢
      exact clean_name_ge3_strip h3
    · rw [heq]
      have hmono : (text.filter Char.isAlpha).length ≤
          (text.filter fun c => !pySpace c).length :=
        filter_imp_length fun c hc => by simp [isAlpha_not_space hc]
      have := clean_name_length_ge_filter text
      omega

/-- Witness for the amended C6 at a concrete entry. -/
theorem parse_member_entry_invariant_witness :
    ∃ m, parse_member_entry ("John Smith (MIT)".data) ("PC".data) = some m ∧
      (m.name ≠ [] ∧ pyStrip m.name = m.name ∧ pyIsUpper m.name = false ∧
        pyIsLower m.name = false ∧ 3 ≤ m.name.length ∧ m.name.length ≤ 100) :=
  ⟨⟨"John Smith".data, "PC".data, "member".data, none, some ("MIT".data)⟩,
    by decide,
    parse_member_entry_invariant ("John Smith (MIT)".data) ("PC".data) _
      (by decide)⟩

/-- A document with one structured member card whose `<h3>` name is
entirely upper-case. -/
def c6Doc : List Node :=
  [.heading 2 ("Program Committee".data),
   .secMembers true [.labeled (some ("ABC DEF".data)) []]]

/-- Counterexample for C6: through the structured-card path the
pipeline emits a record whose name `"ABC DEF"` is entirely
upper-case, violating the claimed invariant. -/
theorem pipeline_invariant_cex :
    parse_section_based ["program committee".data] ("PC".data) c6Doc =
      some [⟨"ABC DEF".data, "PC".data, "member".data, none, none⟩] ∧
    pyIsUpper ("ABC DEF".data) = true := by
  refine ⟨by decide, by decide⟩

end QuantumDB
